import Mathlib

/-!
Verification development for the inventory consolidation tool
(`inventory_app.py`).  The Python source is shallowly embedded below:
pandas tables become lists of records, in-place column updates become
list maps, and the greedy assignment loops become structural
recursions over lists.  Machine integers are modelled by `Int`/`Nat`
and the single floating-point quantity (utilization %) by `ℚ`.
-/

set_option maxRecDepth 4000

/-! ## Python string primitives used by the source -/

/-- ASCII whitespace characters recognised by Python's `str.strip()` /
`int()` (the source data is ASCII; unicode whitespace is out of scope). -/
def isPyWs (c : Char) : Bool :=
  c = ' ' || c = '\t' || c = '\n' || c = '\r' || c = '\x0b' || c = '\x0c'

/-- Strip leading and trailing whitespace from a character list. -/
def pyStripList (cs : List Char) : List Char :=
  ((cs.dropWhile isPyWs).reverse.dropWhile isPyWs).reverse

/-- Model of Python `str.strip()` (as used via `.str.strip()` in pandas). -/
def pyStrip (s : String) : String := String.mk (pyStripList s.data)

/-- Digit-run parser for Python `int()`: digits with single underscores
allowed between digits.  `acc` is the value accumulated so far. -/
def digitsGo (acc : Nat) : List Char → Option Nat
  | [] => some acc
  | c :: rest =>
    if c.isDigit then digitsGo (acc * 10 + (c.toNat - 48)) rest
    else if c = '_' then
      match rest with
      | [] => none
      | d :: rest2 =>
        if d.isDigit then digitsGo (acc * 10 + (d.toNat - 48)) rest2 else none
    else none

/-- Value of a nonempty digit string (Python `int()` digit grammar). -/
def digitsVal : List Char → Option Nat
  | [] => none
  | c :: rest => if c.isDigit then digitsGo (c.toNat - 48) rest else none

/-- Sign handling of Python `int()` on an already-stripped character list. -/
def pyIntCore (cs : List Char) : Option Int :=
  match cs with
  | [] => none
  | c :: rest =>
    if c = '+' then (digitsVal rest).map (fun n => (n : Int))
    else if c = '-' then (digitsVal rest).map (fun n => -(n : Int))
    else (digitsVal cs).map (fun n => (n : Int))

/-- Model of Python `int(s)` for strings: `some n` on success, `none`
when Python would raise `ValueError`. -/
def pyInt (s : String) : Option Int := pyIntCore (pyStripList s.data)

/-! ## Proleptic Gregorian calendar (Python `datetime`)

Dates are represented by their `datetime.date.toordinal()` value:
day 1 is 0001-01-01, which is a Monday. -/

/-- Gregorian leap-year predicate. -/
def isLeap (y : Nat) : Bool := (y % 4 == 0 && y % 100 != 0) || y % 400 == 0

/-- Number of days in year `y`. -/
def daysInYear (y : Nat) : Nat := if isLeap y then 366 else 365

/-- Ordinal (Python `toordinal`) of January 1 of year `y ≥ 1`. -/
def jan1Ordinal (y : Nat) : Nat :=
  365 * (y - 1) + (y - 1) / 4 - (y - 1) / 100 + (y - 1) / 400 + 1

/-- Weekday of January 1 of year `y`, with Monday = 0 (Python
`date.weekday()` convention; ordinal 1 is a Monday). -/
def weekdayOfJan1 (y : Nat) : Nat := (jan1Ordinal y - 1) % 7

/-- Computation performed by Python's
`datetime.strptime(f"{year}-W{week}-1", "%Y-W%W-%w")` for `0 ≤ week ≤ 53`:
the `_strptime` julian-day formula for `%W` (Monday-based week-of-year)
with requested weekday Monday, including the roll-back into the previous
year when the computed julian day is ≤ 0. -/
def strptimeWeekMonday (year week : Nat) : Int :=
  let first_weekday : Int := weekdayOfJan1 year
  let week_0_length : Int := ((7 - weekdayOfJan1 year) % 7 : Nat)
  let julian : Int :=
    if week == 0 then 1 - first_weekday
    else 1 + week_0_length + 7 * ((week : Int) - 1)
  if julian ≤ 0 then
    (jan1Ordinal (year - 1) : Int) + (julian + (daysInYear (year - 1) : Int)) - 1
  else
    (jan1Ordinal year : Int) + julian - 1

/-- Embedding of `parse_batch` (src/inventory_app.py lines 6-16).
Returns the batch prefix (first 2 characters) and the parsed batch date
as an ordinal, with `none` standing for `pd.NaT`.  The week/year fields
are read with Python `int()`; `strptime` succeeds exactly when the
formatted week is matched by the `%W` pattern, i.e. `0 ≤ week ≤ 53`. -/
def parse_batch (batch : String) : Option String × Option Int :=
  if batch.length ≥ 10 then
    let cs := batch.data
    let bpref := String.mk (cs.take 2)
    match pyInt (String.mk ('2' :: '0' :: cs.drop (cs.length - 2))),
          pyInt (String.mk ((cs.drop (cs.length - 4)).take 2)) with
    | some year, some week =>
      if 0 ≤ week ∧ week ≤ 53 then
        (some bpref, some (strptimeWeekMonday year.toNat week.toNat))
      else (some bpref, none)
    | some _, none => (some bpref, none)
    | none, _ => (some bpref, none)
  else (none, none)

/-! ## Data model

One `SourceRow` is one raw row of the Endcaps table (one stock-unit
occurrence); one `TargetRow` is one raw row of the Open Space table.
`SrcRec`/`TgtRec` are the corresponding normalized, enriched records. -/

structure SourceRow where
  bin : String
  stype : String
  material : String
  batch : String
  unit : String
  stock : Int
deriving DecidableEq

structure TargetRow where
  bin : String
  stype : String
  material : String
  batch : String
  capacity : Int
  suCount : Int
  avail : Int
  util : ℚ
deriving DecidableEq

structure SrcRec where
  bin : String
  stype : String
  material : String
  batch : String
  rawBatch : String
  unit : String
  stock : Int
  batchPref : Option String
  batchDate : Option Int
deriving DecidableEq

structure TgtRec where
  bin : String
  stype : String
  material : String
  batch : String
  capacity : Int
  suCount : Int
  avail : Int
  util : ℚ
  batchPref : Option String
  batchDate : Option Int
deriving DecidableEq

structure AssignmentRow where
  tStype : String
  tBin : String
  sBin : String
  sStype : String
  material : String
  oldestTargetBatch : String
  batch : String
  suCapacity : Int
  movedCount : Int
  remainingAvail : Int
  unit : String
  totalStock : Int
deriving DecidableEq

structure SummaryRow where
  tStype : String
  sStype : String
  tBin : String
  sBin : String
  material : String
  oldestTarget : String
  newestTarget : String
  oldestSource : String
  newestSource : String
  suCapacity : Int
  startSuCount : Int
  startAvail : Int
  movedSU : Int
deriving DecidableEq

/-! ## Generic list helpers mirroring pandas operations -/

/-- Stable insertion of `a` into `l`: `a` goes before the first element
`b` with `le a b = true`. -/
def insertLe {α : Type} (le : α → α → Bool) (a : α) : List α → List α
  | [] => [a]
  | b :: t => if le a b then a :: b :: t else b :: insertLe le a t

/-- Stable insertion sort by the boolean comparison `le` (a deterministic
refinement of `DataFrame.sort_values`, whose tie order is unspecified). -/
def sortByLe {α : Type} (le : α → α → Bool) : List α → List α
  | [] => []
  | a :: t => insertLe le a (sortByLe le t)

/-- First row attaining the extreme known date (`Series.idxmin`/`idxmax`
semantics: `NaT` entries are skipped, ties keep the first occurrence).
`better d d0` says the new date `d` beats the current best `d0`. -/
def firstExtremeBatch (better : Int → Int → Bool) (rows : List (Option Int × String)) : String :=
  (rows.foldl
    (fun acc p =>
      match p.1 with
      | none => acc
      | some d =>
        match acc with
        | none => some (d, p.2)
        | some (d0, b0) => if better d d0 then some (d, p.2) else some (d0, b0))
    none).elim "" (fun p => p.2)

/-! ## Normalizer -/

/-- Normalize the Endcaps table (lines 77-102 of the source): keep only
the caller-selected storage types, strip bin id, unit id, material and
batch code, and parse the stripped batch code.  `rawBatch` keeps the raw
code, because `su_batches` is built (line 84) before the batch column is
stripped (line 96), so assignment rows carry the unstripped code. -/
def normalizeSources (selectedTypes : List String) (rows : List SourceRow) : List SrcRec :=
  (rows.filter (fun r => selectedTypes.contains r.stype)).map (fun r =>
    let b := pyStrip r.batch
    { bin := pyStrip r.bin, stype := r.stype, material := pyStrip r.material,
      batch := b, rawBatch := r.batch, unit := pyStrip r.unit, stock := r.stock,
      batchPref := (parse_batch b).1, batchDate := (parse_batch b).2 })

/-- Normalize the Open Space table (lines 74, 91, 95, 97, 100): drop the
reserved "VIR" storage type, strip material and batch code (bin id and
storage type are NOT stripped in the source), parse the batch code, and
sort descending by current SU count.  -/
def normalizeTargets (rows : List TargetRow) : List TgtRec :=
  sortByLe (fun a b => decide (b.suCount ≤ a.suCount))
    ((rows.filter (fun r => r.stype != "VIR")).map (fun r =>
      let b := pyStrip r.batch
      { bin := r.bin, stype := r.stype, material := pyStrip r.material,
        batch := b, capacity := r.capacity, suCount := r.suCount,
        avail := r.avail, util := r.util,
        batchPref := (parse_batch b).1, batchDate := (parse_batch b).2 }))

/-- The working candidate pool `available_bins` (lines 112-117): selected
move-into storage types, utilization < 100, positive available capacity
(the `used_source_bins` exclusion there is vacuous: the set is empty). -/
def initAvailable (moveIntoTypes : List String) (targets : List TgtRec) : List TgtRec :=
  targets.filter (fun t =>
    moveIntoTypes.contains t.stype && decide (t.util < 100) && decide (0 < t.avail))

/-- All rows of the (normalized) Endcaps table belonging to bin `b`. -/
def binGroupOf (endcaps : List SrcRec) (b : String) : List SrcRec :=
  endcaps.filter (fun r => r.bin == b)

/-- `Total Unique SU Count` of a bin group: number of distinct unit ids. -/
def totalSUOf (g : List SrcRec) : Nat := ((g.map (fun r => r.unit)).dedup).length

/-- Code-point lexicographic comparison of character lists: the order in
which Python compares strings, hence the order pandas sorts them in. -/
def strLeAux : List Char → List Char → Bool
  | [], _ => true
  | _ :: _, [] => false
  | a :: as, b :: bs =>
    if a.toNat < b.toNat then true
    else if b.toNat < a.toNat then false
    else strLeAux as bs

/-- Code-point lexicographic order on strings. -/
def strLe (a b : String) : Bool := strLeAux a.data b.data

/-- `bin_su_batches` for one bin (line 84 + line 130): one entry per
distinct storage unit, in sorted unit order (pandas `groupby` sorts its
keys), carrying the list of raw batch codes of that unit's rows. -/
def suBatchesOf (g : List SrcRec) : List (String × List String) :=
  (sortByLe strLe ((g.map (fun r => r.unit)).dedup)).map
    (fun u => (u, (g.filter (fun r => r.unit == u)).map (fun r => r.rawBatch)))

/-- Source-bin processing order (line 120): distinct bins (pandas
`groupby` yields them sorted by bin id) stably sorted by unique-SU
count ascending. -/
def binOrder (endcaps : List SrcRec) : List String :=
  sortByLe (fun a b => decide (totalSUOf (binGroupOf endcaps a) ≤ totalSUOf (binGroupOf endcaps b)))
    (sortByLe strLe ((endcaps.map (fun r => r.bin)).dedup))

/-! ## Assignment engine -/

structure EngineState where
  availableBins : List TgtRec
  usedSourceBins : List String
  assignments : List AssignmentRow
  summary : List SummaryRow
deriving DecidableEq

/-- Initial engine state (lines 106-109). -/
def mkInit (pool : List TgtRec) : EngineState :=
  { availableBins := pool, usedSourceBins := [], assignments := [], summary := [] }

/-- In-place decrement of `Avail SU` for every pool row of bin `x`
(`available_bins.loc[available_bins["Storage Bin"] == x, "Avail SU"] -= k`). -/
def decBin (l : List TgtRec) (x : String) (k : Int) : List TgtRec :=
  l.map (fun t => if t.bin == x then { t with avail := t.avail - k } else t)

/-- `Avail SU` of the first row of bin `x` (`.loc[...].values[0]`; the
default 0 is unreachable at every call site). -/
def availOfFirst (l : List TgtRec) (x : String) : Int :=
  ((l.find? (fun t => t.bin == x)).map (fun t => t.avail)).getD 0

/-- The batch-date compatibility gate (lines 146-156 / 268-279): every
unit row of the source bin must have a known batch date, and its absolute
day distance to every known candidate date must be at most 364. -/
def dateCompatible (g : List SrcRec) (pool : List TgtRec) : Bool :=
  g.all (fun r =>
    match r.batchDate with
    | none => false
    | some d =>
      pool.all (fun t =>
        match t.batchDate with
        | none => true
        | some e => decide ((e - d).natAbs ≤ 364)))

/-- Full-move candidate pool for source bin `b` (lines 256-265): matching
material, matching batch prefix, different bin id, capacity at least the
bin's unique-SU count, not a consumed source, known batch date; sorted by
available capacity descending. -/
def matchingFull (endcaps : List SrcRec) (st : EngineState) (b : String) : List TgtRec :=
  match binGroupOf endcaps b with
  | [] => []
  | g0 :: _ =>
    sortByLe (fun a b => decide (b.avail ≤ a.avail))
      ((st.availableBins.filter (fun t =>
        t.material == g0.material && t.batchPref == g0.batchPref &&
        t.bin != b && decide ((totalSUOf (binGroupOf endcaps b) : Int) ≤ t.avail) &&
        !st.usedSourceBins.contains t.bin)).filter (fun t => t.batchDate.isSome))

/-- Assignment rows emitted on a full-move commit (lines 292-307): one
row per raw batch of each storage unit of the bin. -/
def fullMoveRows (g0 : SrcRec) (b : String) (t : TgtRec) (oldestTarget : String)
    (totalSU : Nat) (suB : List (String × List String)) : List AssignmentRow :=
  suB.flatMap (fun p => p.2.map (fun batch =>
    { tStype := t.stype, tBin := t.bin, sBin := b, sStype := g0.stype,
      material := g0.material, oldestTargetBatch := oldestTarget, batch := batch,
      suCapacity := t.capacity, movedCount := 1,
      remainingAvail := t.avail - (totalSU : Int), unit := p.1,
      totalStock := g0.stock }))

/-- `target_batches` of a full-move commit (lines 283-287): pool rows of
the chosen bin with matching material and prefix, with their dates. -/
def fullTargetBatches (st : EngineState) (t : TgtRec) : List (Option Int × String) :=
  (st.availableBins.filter (fun u =>
    u.bin == t.bin && u.material == t.material && u.batchPref == t.batchPref)).map
    (fun u => (u.batchDate, u.batch))

/-- `oldest_target` of a full-move commit (line 288). -/
def fullOldestTarget (st : EngineState) (t : TgtRec) : String :=
  firstExtremeBatch (fun d d0 => decide (d < d0)) (fullTargetBatches st t)

/-- `newest_target` of a full-move commit (line 289). -/
def fullNewestTarget (st : EngineState) (t : TgtRec) : String :=
  firstExtremeBatch (fun d d0 => decide (d0 < d)) (fullTargetBatches st t)

/-- `oldest` batch of the bin group by parsed date (lines 310/245). -/
def oldestOfGroup (g : List SrcRec) : String :=
  firstExtremeBatch (fun d d0 => decide (d < d0)) (g.map (fun r => (r.batchDate, r.batch)))

/-- `newest` batch of the bin group by parsed date (lines 311/246). -/
def newestOfGroup (g : List SrcRec) : String :=
  firstExtremeBatch (fun d d0 => decide (d0 < d)) (g.map (fun r => (r.batchDate, r.batch)))

/-- Summary row of a full-move commit (lines 312-326). -/
def fullSummaryOf (st : EngineState) (b : String) (g0 : SrcRec) (t : TgtRec)
    (totalSU : Nat) (g : List SrcRec) : SummaryRow :=
  { tStype := t.stype, sStype := g0.stype, tBin := t.bin, sBin := b,
    material := g0.material, oldestTarget := fullOldestTarget st t,
    newestTarget := fullNewestTarget st t,
    oldestSource := oldestOfGroup g, newestSource := newestOfGroup g,
    suCapacity := t.capacity, startSuCount := t.suCount,
    startAvail := t.avail, movedSU := (totalSU : Int) }

/-- State after a full-move commit of bin `b` to target `t`
(lines 281-331): emit the rows and the summary, mark the source bin
consumed, decrement the target's capacity in the pool. -/
def commitFull (endcaps : List SrcRec) (st : EngineState) (b : String) (g0 : SrcRec)
    (t : TgtRec) : EngineState :=
  { availableBins := decBin st.availableBins t.bin (totalSUOf (binGroupOf endcaps b) : Int),
    usedSourceBins := b :: st.usedSourceBins,
    assignments := st.assignments ++
      fullMoveRows g0 b t (fullOldestTarget st t) (totalSUOf (binGroupOf endcaps b))
        (suBatchesOf (binGroupOf endcaps b)),
    summary := st.summary ++
      [fullSummaryOf st b g0 t (totalSUOf (binGroupOf endcaps b)) (binGroupOf endcaps b)] }

/-- One full-move step (lines 254-331).  The source's per-candidate
`valid_match` check does not depend on the candidate (it compares the
source dates against the whole `matching_bins` pool), so the first-fit
loop commits to the first candidate exactly when the pool-wide check
passes; `List.find?` with that constant predicate expresses the loop. -/
def processBinFull (endcaps : List SrcRec) (st : EngineState) (b : String) : EngineState :=
  match binGroupOf endcaps b with
  | [] => st
  | g0 :: _ =>
    match (matchingFull endcaps st b).find?
        (fun _ => dateCompatible (binGroupOf endcaps b) (matchingFull endcaps st b)) with
    | none => st
    | some t => commitFull endcaps st b g0 t

/-! ### Split-move ("Partial Moves") branch

The source (lines 132-251) assigns storage units target by target,
decrementing both a temporary copy of the matching bins and the main
pool in place, and only afterwards decides whether the bin counts as
moved.  The loop state below mirrors the Python local variables,
including the ones that merely leak out of the loop and feed the
summary row (`open_space_bin`, `current_avail`, `oldest_target`,
`newest_target`). -/

structure PLoopState where
  temp : List TgtRec
  pool : List TgtRec
  remaining : Int
  assigned : List String
  assignments : List AssignmentRow
  lastRow : Option TgtRec
  lastCur : Option Int
  lastOldest : Option String
  lastNewest : Option String
deriving DecidableEq

/-- Candidate pool for a split move (lines 135-143): like the full-move
pool but with no per-row capacity requirement. -/
def matchingSplit (endcaps : List SrcRec) (st : EngineState) (b : String) : List TgtRec :=
  match binGroupOf endcaps b with
  | [] => []
  | g0 :: _ =>
    sortByLe (fun a b => decide (b.avail ≤ a.avail))
      ((st.availableBins.filter (fun t =>
        t.material == g0.material && t.batchPref == g0.batchPref &&
        t.bin != b && !st.usedSourceBins.contains t.bin)).filter
        (fun t => t.batchDate.isSome))

/-- Inner unit-assignment loop (lines 196-233): walk the bin's storage
units, skip already-assigned ones, stop when this target's allowance
`suToMove` is used up; each moved unit appends one row per raw batch and
decrements both the temporary and the main pool by 1.  Returns the loop
state and the leftover allowance. -/
def innerAssign (tgtBin : String) (mkRow : String → String → AssignmentRow)
    (s : PLoopState) (suToMove : Int) :
    List (String × List String) → PLoopState × Int
  | [] => (s, suToMove)
  | (u, batches) :: rest =>
    if s.assigned.contains u then innerAssign tgtBin mkRow s suToMove rest
    else if suToMove ≤ 0 then (s, suToMove)
    else
      innerAssign tgtBin mkRow
        { s with
          assignments := s.assignments ++ batches.map (fun batch => mkRow batch u),
          assigned := u :: s.assigned,
          remaining := s.remaining - 1,
          temp := decBin s.temp tgtBin 1,
          pool := decBin s.pool tgtBin 1 }
        (suToMove - 1) rest

/-- `target_batches` of the current target during a split move
(lines 187-191): temp rows of the same bin, material and batch prefix,
paired with their dates for the `idxmin`/`idxmax` selection. -/
def targetBatchesOf (temp : List TgtRec) (r : TgtRec) : List (Option Int × String) :=
  (temp.filter (fun u =>
    u.bin == r.bin && u.material == r.material && u.batchPref == r.batchPref)).map
    (fun u => (u.batchDate, u.batch))

/-- `oldest_target` for the current split-move target. -/
def oldestTargetOf (temp : List TgtRec) (r : TgtRec) : String :=
  firstExtremeBatch (fun d d0 => decide (d < d0)) (targetBatchesOf temp r)

/-- `newest_target` for the current split-move target. -/
def newestTargetOf (temp : List TgtRec) (r : TgtRec) : String :=
  firstExtremeBatch (fun d d0 => decide (d0 < d)) (targetBatchesOf temp r)

/-- One assignment row of a split move (lines 206-219).  Every row of the
current target records `current_avail - 1` as the remaining capacity (the
source does not re-read it inside the unit loop). -/
def splitRowOf (b : String) (g0 : SrcRec) (r : TgtRec) (cur : Int) (oldest : String)
    (batch u : String) : AssignmentRow :=
  { tStype := r.stype, tBin := r.bin, sBin := b, sStype := g0.stype,
    material := g0.material, oldestTargetBatch := oldest, batch := batch,
    suCapacity := r.capacity, movedCount := 1,
    remainingAvail := cur - 1, unit := u, totalStock := g0.stock }

/-- Outer target loop of a split move (lines 174-233), iterating over the
snapshot of matching bins (`iterrows` yields the rows as they were when
the iterator was created; the code re-reads the current capacity from
the temporary copy explicitly).  The `lastRow`/`lastCur`/`lastOldest`/
`lastNewest` fields mirror the Python loop variables that leak out of
the loop: the row is rebound even on the breaking iteration, the current
capacity on every entered iteration, the oldest/newest labels only on
assigning iterations. -/
def splitLoop (suB : List (String × List String)) (b : String) (g0 : SrcRec) :
    List TgtRec → PLoopState → PLoopState
  | [], s => s
  | r :: rest, s =>
    if s.remaining ≤ 0 then { s with lastRow := some r }
    else if min s.remaining (availOfFirst s.temp r.bin) ≤ 0 then
      splitLoop suB b g0 rest
        { s with lastRow := some r, lastCur := some (availOfFirst s.temp r.bin) }
    else
      splitLoop suB b g0 rest
        (innerAssign r.bin
          (splitRowOf b g0 r (availOfFirst s.temp r.bin) (oldestTargetOf s.temp r))
          { s with
            lastRow := some r
            lastCur := some (availOfFirst s.temp r.bin)
            lastOldest := some (oldestTargetOf s.temp r)
            lastNewest := some (newestTargetOf s.temp r) }
          (min s.remaining (availOfFirst s.temp r.bin)) suB).1

/-- Initial loop state of a split move (lines 166-172): the temporary
copy of the matching bins next to the live pool, the bin's unit count to
place, and the engine's assignment list so far. -/
def initPLoop (st : EngineState) (g : List SrcRec) (matching : List TgtRec) : PLoopState :=
  { temp := matching, pool := st.availableBins, remaining := (totalSUOf g : Int),
    assigned := [], assignments := st.assignments, lastRow := none,
    lastCur := none, lastOldest := none, lastNewest := none }

/-- Summary row of a committed split move (lines 237-251), built from the
leaked loop variables: the last `totalSU` assignment rows decide the
"Multiple" labels, `open_space_bin`/`current_avail` hold whatever the
last loop iteration left in them. -/
def splitSummaryOf (b : String) (g0 : SrcRec) (g : List SrcRec) (s : PLoopState) :
    SummaryRow :=
  { tStype :=
      if (((s.assignments.drop (s.assignments.length - totalSUOf g)).map
          (fun a => a.tBin)).dedup).length > 1 then "Multiple"
      else ((s.assignments.getLast?.map (fun a => a.tStype)).getD ""),
    sStype := g0.stype,
    tBin :=
      if (((s.assignments.drop (s.assignments.length - totalSUOf g)).map
          (fun a => a.tBin)).dedup).length > 1 then "Multiple"
      else ((s.assignments.getLast?.map (fun a => a.tBin)).getD ""),
    sBin := b, material := g0.material,
    oldestTarget := s.lastOldest.getD "",
    newestTarget := s.lastNewest.getD "",
    oldestSource := oldestOfGroup g, newestSource := newestOfGroup g,
    suCapacity := ((s.lastRow.map (fun r => r.capacity)).getD 0),
    startSuCount := ((s.lastRow.map (fun r => r.suCount)).getD 0),
    startAvail := s.lastCur.getD 0 + 1,
    movedSU := (totalSUOf g : Int) }

/-- End of a split move (lines 235-251): the loop's pool decrements and
assignment rows stand either way; only when every unit was placed is the
source bin marked consumed and a summary row appended. -/
def splitFinish (st : EngineState) (b : String) (g0 : SrcRec) (g : List SrcRec)
    (s : PLoopState) : EngineState :=
  if s.remaining == 0 then
    { availableBins := s.pool, usedSourceBins := b :: st.usedSourceBins,
      assignments := s.assignments,
      summary := st.summary ++ [splitSummaryOf b g0 g s] }
  else
    { st with availableBins := s.pool, assignments := s.assignments }

/-- One split-move step (lines 132-251).  Note the non-atomic structure
of the source: pool decrements and assignment rows are applied during
the loop, and only the final `remaining_su == 0` test decides whether
the bin is recorded as moved and summarised. -/
def processBinSplit (endcaps : List SrcRec) (st : EngineState) (b : String) : EngineState :=
  match binGroupOf endcaps b with
  | [] => st
  | g0 :: _ =>
    if !dateCompatible (binGroupOf endcaps b) (matchingSplit endcaps st b) then st
    else if ((matchingSplit endcaps st b).map (fun t => t.avail)).sum <
        (totalSUOf (binGroupOf endcaps b) : Int) then st
    else
      splitFinish st b g0 (binGroupOf endcaps b)
        (splitLoop (suBatchesOf (binGroupOf endcaps b)) b g0 (matchingSplit endcaps st b)
          (initPLoop st (binGroupOf endcaps b) (matchingSplit endcaps st b)))

/-- One engine step for either move policy. -/
def processBin (splitMoves : Bool) (endcaps : List SrcRec) (st : EngineState)
    (b : String) : EngineState :=
  if splitMoves then processBinSplit endcaps st b else processBinFull endcaps st b

/-- The main loop over source bins (lines 122-331). -/
def runEngine (splitMoves : Bool) (endcaps : List SrcRec) (order : List String)
    (st : EngineState) : EngineState :=
  order.foldl (fun st b =>
    if st.usedSourceBins.contains b then st else processBin splitMoves endcaps st b) st

/-! ## Output assembly -/

/-- Write-back of one pool row into one original Open Space row
(lines 335-340): rows of the same bin id get the pool's available
capacity, a recomputed SU count, and a recomputed utilization. -/
def writeBackRow (o : TargetRow) (r : TgtRec) : TargetRow :=
  if o.bin == r.bin then
    { o with
      avail := r.avail
      suCount := r.capacity - r.avail
      util := ((r.capacity : ℚ) - (r.avail : ℚ)) / (r.capacity : ℚ) * 100 }
  else o

/-- The `updated_open_space_df` write-back loop (lines 335-340): every
pool row, touched or not, is written back into the copied upload table. -/
def writeBack (orig : List TargetRow) (pool : List TgtRec) : List TargetRow :=
  pool.foldl (fun acc r => acc.map (fun o => writeBackRow o r)) orig

/-- The whole pipeline for one run: normalize both tables, build the
working pool, process the source bins in priority order, and assemble
the updated Open Space table. -/
def runPipeline (selectedTypes moveIntoTypes : List String) (splitMoves : Bool)
    (srcRows : List SourceRow) (tgtRows : List TargetRow) :
    EngineState × List TargetRow :=
  let endcaps := normalizeSources selectedTypes srcRows
  let pool := initAvailable moveIntoTypes (normalizeTargets tgtRows)
  let final := runEngine splitMoves endcaps (binOrder endcaps) (mkInit pool)
  (final, writeBack tgtRows final.availableBins)

/-! ## Specification-side date functions

`mondayOfWeekW` restates the parser's date arithmetic directly, for
comparison with the embedded `_strptime` computation;
`mondayOfWeekSundayBased` follows the spec sentence's words
(Sunday-based week numbering, i.e. Python's `%U`). -/

/-- Monday of week `w` of `year` under the Monday-based `%W` convention,
written directly: week 1 starts at the first Monday of the year, and the
"Monday of week 0" lands `weekday(Jan 1)` days before January 1. -/
def mondayOfWeekW (year w : Nat) : Int :=
  if w == 0 then (jan1Ordinal year : Int) - (weekdayOfJan1 year : Int)
  else (jan1Ordinal year : Int) + (((7 - weekdayOfJan1 year) % 7 : Nat) : Int) + 7 * ((w : Int) - 1)

/-- Modelled from the spec's words: the Monday of week `w` when week
numbering starts from the first Sunday-based week boundary of the year
(Python's `%U` convention, weekday `%w` index 1 = Monday). -/
def mondayOfWeekSundayBased (year w : Nat) : Int :=
  if w == 0 then (jan1Ordinal year : Int) + 1 - (((weekdayOfJan1 year + 1) % 7 : Nat) : Int)
  else (jan1Ordinal year : Int) + (((7 - (weekdayOfJan1 year + 1) % 7) % 7 : Nat) : Int) +
    7 * ((w : Int) - 1) + 1

/-! ## Calendar lemmas -/

set_option maxHeartbeats 1000000 in
theorem jan1Ordinal_succ (n : Nat) (h : 1 ≤ n) :
    jan1Ordinal (n + 1) = jan1Ordinal n + daysInYear n := by
  simp only [jan1Ordinal, daysInYear, isLeap, Nat.add_sub_cancel]
  split <;> rename_i hsp <;>
    simp only [Bool.or_eq_true, Bool.and_eq_true, beq_iff_eq, bne_iff_ne, ne_eq] at hsp <;>
    omega

theorem weekdayOfJan1_lt (y : Nat) : weekdayOfJan1 y < 7 := Nat.mod_lt _ (by omega)

/-- The embedded `_strptime` computation agrees with the direct `%W`
Monday-of-week formula for every year ≥ 2 (the roll-back branch for
week 0 lands exactly `weekday(Jan 1)` days before January 1). -/
theorem strptimeWeekMonday_eq_mondayOfWeekW (year w : Nat) (hy : 2 ≤ year) :
    strptimeWeekMonday year w = mondayOfWeekW year w := by
  have hlt := weekdayOfJan1_lt year
  have hj : jan1Ordinal year = jan1Ordinal (year - 1) + daysInYear (year - 1) := by
    have h1 : year - 1 + 1 = year := by omega
    have h2 := jan1Ordinal_succ (year - 1) (by omega)
    rw [h1] at h2
    exact h2
  unfold strptimeWeekMonday mondayOfWeekW
  by_cases hw : w = 0
  · subst hw
    simp only [beq_self_eq_true, if_true]
    by_cases hfw : weekdayOfJan1 year = 0
    · rw [hfw]
      norm_num
    · have h1 : (1 : Int) - (weekdayOfJan1 year : Int) ≤ 0 := by omega
      rw [if_pos h1]
      omega
  · have hnb : (w == 0) = false := by simp [hw]
    rw [hnb]
    simp only [Bool.false_eq_true, if_false]
    have hge : (0: Int) <
        1 + (((7 - weekdayOfJan1 year) % 7 : Nat) : Int) + 7 * ((w : Int) - 1) := by
      have h7 : (0 : Nat) ≤ (7 - weekdayOfJan1 year) % 7 := Nat.zero_le _
      have hw1 : 1 ≤ w := by omega
      have : (1 : Int) ≤ (w : Int) := by exact_mod_cast hw1
      omega
    rw [if_neg (by omega)]
    omega

/-! ## Lemmas about the Python `int()` model on digit strings -/

theorem isPyWs_of_isDigit (c : Char) (h : c.isDigit = true) : isPyWs c = false := by
  by_cases h1 : c = ' '
  · subst h1; exact absurd h (by decide)
  by_cases h2 : c = '\t'
  · subst h2; exact absurd h (by decide)
  by_cases h3 : c = '\n'
  · subst h3; exact absurd h (by decide)
  by_cases h4 : c = '\r'
  · subst h4; exact absurd h (by decide)
  by_cases h5 : c = '\x0b'
  · subst h5; exact absurd h (by decide)
  by_cases h6 : c = '\x0c'
  · subst h6; exact absurd h (by decide)
  simp [isPyWs, h1, h2, h3, h4, h5, h6]

theorem digitsGo_cons_digit (acc : Nat) (c : Char) (hc : c.isDigit = true)
    (rest : List Char) :
    digitsGo acc (c :: rest) = digitsGo (acc * 10 + (c.toNat - 48)) rest := by
  rw [digitsGo.eq_def]
  simp [hc]

theorem digitsVal_year (c d : Char) (hc : c.isDigit = true) (hd : d.isDigit = true) :
    digitsVal ['2', '0', c, d] = some (2000 + 10 * (c.toNat - 48) + (d.toNat - 48)) := by
  rw [digitsVal, if_pos (by decide), digitsGo_cons_digit _ _ (by decide),
    digitsGo_cons_digit _ _ hc, digitsGo_cons_digit _ _ hd, digitsGo]
  have t0 : ('0').toNat = 48 := rfl
  have t2 : ('2').toNat = 50 := rfl
  rw [t0, t2]
  congr 1
  omega

theorem digitsVal_week (c d : Char) (hc : c.isDigit = true) (hd : d.isDigit = true) :
    digitsVal [c, d] = some (10 * (c.toNat - 48) + (d.toNat - 48)) := by
  rw [digitsVal, if_pos hc, digitsGo_cons_digit _ _ hd, digitsGo]
  congr 1
  omega

theorem pyStripList_year (c d : Char) (hc : c.isDigit = true) (hd : d.isDigit = true) :
    pyStripList ['2', '0', c, d] = ['2', '0', c, d] := by
  have h2 : isPyWs '2' = false := by decide
  have hdd : isPyWs d = false := isPyWs_of_isDigit d hd
  simp [pyStripList, List.dropWhile_cons, h2, hdd]

theorem pyStripList_week (c d : Char) (hc : c.isDigit = true) (hd : d.isDigit = true) :
    pyStripList [c, d] = [c, d] := by
  have hcc : isPyWs c = false := isPyWs_of_isDigit c hc
  have hdd : isPyWs d = false := isPyWs_of_isDigit d hd
  simp [pyStripList, List.dropWhile_cons, hcc, hdd]

theorem pyInt_year (c d : Char) (hc : c.isDigit = true) (hd : d.isDigit = true) :
    pyInt (String.mk ['2', '0', c, d]) =
      some ((2000 + 10 * (c.toNat - 48) + (d.toNat - 48) : Nat) : Int) := by
  show pyIntCore (pyStripList ['2', '0', c, d]) = _
  rw [pyStripList_year c d hc hd, pyIntCore, if_neg (by decide), if_neg (by decide),
    digitsVal_year c d hc hd]
  rfl

theorem pyInt_week (c d : Char) (hc : c.isDigit = true) (hd : d.isDigit = true) :
    pyInt (String.mk [c, d]) = some ((10 * (c.toNat - 48) + (d.toNat - 48) : Nat) : Int) := by
  show pyIntCore (pyStripList [c, d]) = _
  have hcp : c ≠ '+' := by rintro rfl; exact absurd hc (by decide)
  have hcm : c ≠ '-' := by rintro rfl; exact absurd hc (by decide)
  rw [pyStripList_week c d hc hd, pyIntCore, if_neg hcp, if_neg hcm,
    digitsVal_week c d hc hd]
  rfl

/-- The parser on a code whose four trailing characters are digits:
prefix and the direct Monday-of-week computation. -/
theorem parse_batch_digits (pre : List Char) (w1 w0 y1 y0 : Char)
    (hlen : 6 ≤ pre.length) (hw1 : w1.isDigit = true) (hw0 : w0.isDigit = true)
    (hy1 : y1.isDigit = true) (hy0 : y0.isDigit = true) :
    parse_batch (String.mk (pre ++ [w1, w0, y1, y0])) =
      (some (String.mk (pre.take 2)),
       if 10 * (w1.toNat - 48) + (w0.toNat - 48) ≤ 53 then
         some (mondayOfWeekW (2000 + 10 * (y1.toNat - 48) + (y0.toNat - 48))
           (10 * (w1.toNat - 48) + (w0.toNat - 48)))
       else none) := by
  have hlen4 : (pre ++ [w1, w0, y1, y0]).length = pre.length + 4 := by simp
  have hcond : 10 ≤ (String.mk (pre ++ [w1, w0, y1, y0])).length := by
    show 10 ≤ (pre ++ [w1, w0, y1, y0]).length
    omega
  have htake : (pre ++ [w1, w0, y1, y0]).take 2 = pre.take 2 := by
    rw [List.take_append_eq_append_take]
    have : 2 - pre.length = 0 := by omega
    simp [this]
  have hdrop2 : (pre ++ [w1, w0, y1, y0]).drop ((pre ++ [w1, w0, y1, y0]).length - 2) = [y1, y0] := by
    rw [hlen4]
    have h1 : pre.length + 4 - 2 = pre.length + 2 := by omega
    rw [h1, List.drop_append_eq_append_drop, List.drop_eq_nil_of_le (by omega)]
    have h2 : pre.length + 2 - pre.length = 2 := by omega
    simp [h2]
  have hdrop4 : ((pre ++ [w1, w0, y1, y0]).drop ((pre ++ [w1, w0, y1, y0]).length - 4)).take 2 = [w1, w0] := by
    rw [hlen4]
    have h1 : pre.length + 4 - 4 = pre.length := by omega
    rw [h1, List.drop_append_eq_append_drop, List.drop_eq_nil_of_le (by omega)]
    simp
  rw [parse_batch, if_pos hcond]
  show (let cs := pre ++ [w1, w0, y1, y0]; _) = _
  simp only [hdrop2, hdrop4, htake]
  rw [pyInt_year y1 y0 hy1 hy0, pyInt_week w1 w0 hw1 hw0]
  have hy2 : 2 ≤ 2000 + 10 * (y1.toNat - 48) + (y0.toNat - 48) := by omega
  simp only [Int.toNat_natCast]
  rw [strptimeWeekMonday_eq_mondayOfWeekW _ _ hy2]
  have hsplit : (0 ≤ ((10 * (w1.toNat - 48) + (w0.toNat - 48) : Nat) : Int) ∧
      ((10 * (w1.toNat - 48) + (w0.toNat - 48) : Nat) : Int) ≤ 53) ↔
      10 * (w1.toNat - 48) + (w0.toNat - 48) ≤ 53 := by
    constructor
    · intro h
      exact_mod_cast h.2
    · intro h
      exact ⟨Int.natCast_nonneg _, by exact_mod_cast h⟩
  split
  · rename_i h
    rw [if_pos (hsplit.mp h)]
  · rename_i h
    rw [if_neg (fun hh => h (hsplit.mpr hh))]

/-- For every code of length at least 10 the parser returns the first two
characters as the prefix, whatever happens to the date. -/
theorem parse_batch_fst (b : String) (h : 10 ≤ b.length) :
    (parse_batch b).1 = some (String.mk (b.data.take 2)) := by
  simp only [parse_batch, if_pos h]
  cases hy : pyInt (String.mk ('2' :: '0' :: b.data.drop (b.data.length - 2))) with
  | none => rfl
  | some y =>
    cases hw : pyInt (String.mk ((b.data.drop (b.data.length - 4)).take 2)) with
    | none => rfl
    | some w =>
      by_cases hc : 0 ≤ w ∧ w ≤ 53
      · simp only [if_pos hc]
      · simp only [if_neg hc]

/-! ## Sorting and pool-update lemmas -/

theorem insertLe_perm {α : Type} (le : α → α → Bool) (a : α) (l : List α) :
    (insertLe le a l).Perm (a :: l) := by
  induction l with
  | nil => exact List.Perm.refl _
  | cons b t ih =>
    rw [insertLe]
    split
    · exact List.Perm.refl _
    · exact (ih.cons b).trans (List.Perm.swap a b t)

theorem sortByLe_perm {α : Type} (le : α → α → Bool) (l : List α) :
    (sortByLe le l).Perm l := by
  induction l with
  | nil => exact List.Perm.refl _
  | cons a t ih => exact (insertLe_perm le a (sortByLe le t)).trans (ih.cons a)

theorem mem_sortByLe {α : Type} (le : α → α → Bool) (l : List α) (a : α) :
    a ∈ sortByLe le l ↔ a ∈ l := (sortByLe_perm le l).mem_iff

theorem length_sortByLe {α : Type} (le : α → α → Bool) (l : List α) :
    (sortByLe le l).length = l.length := (sortByLe_perm le l).length_eq

theorem nodup_sortByLe {α : Type} (le : α → α → Bool) (l : List α) :
    (sortByLe le l).Nodup ↔ l.Nodup := (sortByLe_perm le l).nodup_iff

theorem decBin_map_bin (l : List TgtRec) (x : String) (k : Int) :
    (decBin l x k).map (fun t => t.bin) = l.map (fun t => t.bin) := by
  induction l with
  | nil => rfl
  | cons t rest ih =>
    simp only [decBin, List.map_cons] at ih ⊢
    rw [ih]
    split <;> rfl

theorem decBin_decBin (l : List TgtRec) (x : String) (j k : Int) :
    decBin (decBin l x j) x k = decBin l x (j + k) := by
  induction l with
  | nil => rfl
  | cons t rest ih =>
    simp only [decBin, List.map_cons] at ih ⊢
    rw [ih]
    by_cases h : t.bin == x
    · simp only [h, if_true]
      have : t.avail - j - k = t.avail - (j + k) := by omega
      simp [this]
    · simp only [h]
      simp only [Bool.false_eq_true, if_false]
      simp [h]

theorem find?_decBin_ne (l : List TgtRec) (x y : String) (k : Int) (hxy : y ≠ x) :
    (decBin l x k).find? (fun t => t.bin == y) =
      ((l.find? (fun t => t.bin == y)).map
        (fun t => if t.bin == x then { t with avail := t.avail - k } else t)) := by
  induction l with
  | nil => rfl
  | cons t rest ih =>
    simp only [decBin, List.map_cons, List.find?_cons] at ih ⊢
    by_cases hb : t.bin == y
    · have hx : (t.bin == x) = false := by
        simp only [beq_iff_eq] at hb ⊢
        simp [hb, hxy]
      have hx2 : ¬ t.bin = x := by simpa using hx
      simp [hb, hx, hx2]
    · have hb2 : ((if t.bin == x then { t with avail := t.avail - k } else t).bin == y) = false := by
        split <;> simpa using hb
      simp only [hb, hb2, Bool.false_eq_true, if_false]
      exact ih

theorem availOfFirst_decBin_ne (l : List TgtRec) (x y : String) (k : Int) (hxy : y ≠ x) :
    availOfFirst (decBin l x k) y = availOfFirst l y := by
  rw [availOfFirst, availOfFirst, find?_decBin_ne l x y k hxy]
  cases hf : l.find? (fun t => t.bin == y) with
  | none => rfl
  | some t =>
    have ht := List.find?_some hf
    simp only [beq_iff_eq] at ht
    have htx : ¬ t.bin = x := by simp [ht, hxy]
    simp [htx]

theorem decBin_zero (l : List TgtRec) (x : String) : decBin l x 0 = l := by
  induction l with
  | nil => rfl
  | cons t rest ih =>
    simp only [decBin, List.map_cons] at ih ⊢
    rw [ih]
    split <;> simp

theorem find?_bin_of_nodup (l : List TgtRec) (t : TgtRec)
    (hN : (l.map (fun u => u.bin)).Nodup) (ht : t ∈ l) :
    l.find? (fun u => u.bin == t.bin) = some t := by
  induction l with
  | nil => exact absurd ht (List.not_mem_nil t)
  | cons u rest ih =>
    simp only [List.map_cons, List.nodup_cons] at hN
    rcases List.mem_cons.mp ht with h | h
    · subst h
      rw [List.find?_cons]
      simp
    · have hub : (u.bin == t.bin) = false := by
        simp only [beq_eq_false_iff_ne, ne_eq]
        intro he
        exact hN.1 (he ▸ List.mem_map_of_mem (fun v => v.bin) h)
      simp only [List.find?_cons, hub, Bool.false_eq_true, if_false]
      exact ih hN.2 h

/-- Number of storage units of the bin not yet assigned. -/
def unassignedCount (l : List (String × List String)) (A : List String) : Nat :=
  (l.filter (fun p => !A.contains p.1)).length

theorem unassignedCount_cons_mem (u : String) (bs : List String)
    (l : List (String × List String)) (A : List String) (h : u ∈ A) :
    unassignedCount ((u, bs) :: l) A = unassignedCount l A := by
  simp [unassignedCount, List.filter_cons, h]

theorem unassignedCount_cons_not_mem (u : String) (bs : List String)
    (l : List (String × List String)) (A : List String) (h : u ∉ A) :
    unassignedCount ((u, bs) :: l) A = unassignedCount l A + 1 := by
  simp [unassignedCount, List.filter_cons, h]

theorem unassignedCount_extend_not_mem (u : String)
    (l : List (String × List String)) (A : List String)
    (h : u ∉ l.map Prod.fst) :
    unassignedCount l (u :: A) = unassignedCount l A := by
  induction l with
  | nil => rfl
  | cons p rest ih =>
    simp only [List.map_cons, List.mem_cons, not_or] at h
    have hp : ((u :: A).contains p.1) = (A.contains p.1) := by
      simp [List.elem_iff, List.mem_cons]
      intro he
      exact absurd he.symm h.1
    by_cases hA : p.1 ∈ A
    · have h1 : p.1 ∈ u :: A := List.mem_cons_of_mem u hA
      rcases p with ⟨p1, p2⟩
      rw [unassignedCount_cons_mem _ _ _ _ h1, unassignedCount_cons_mem _ _ _ _ hA]
      exact ih h.2
    · have h1 : p.1 ∉ u :: A := by
        simp only [List.mem_cons, not_or]
        exact ⟨fun he => h.1 he.symm, hA⟩
      rcases p with ⟨p1, p2⟩
      rw [unassignedCount_cons_not_mem _ _ _ _ h1, unassignedCount_cons_not_mem _ _ _ _ hA]
      rw [ih h.2]

/-- Aggregate behaviour of the inner unit loop: it moves some number
`j` of units, `j` being the allowance capped by the number of
still-unassigned units, decrementing both pools `j` times and appending
only rows built by `mkRow`. -/
theorem innerAssign_spec (tgtBin : String) (mkRow : String → String → AssignmentRow)
    (l : List (String × List String)) (s : PLoopState) (m : Int)
    (hN : (l.map Prod.fst).Nodup) :
    ∃ (j : Nat) (newA : List String) (newRows : List AssignmentRow),
      (innerAssign tgtBin mkRow s m l).1 =
        { temp := decBin s.temp tgtBin (j : Int),
          pool := decBin s.pool tgtBin (j : Int),
          remaining := s.remaining - (j : Int),
          assigned := newA ++ s.assigned,
          assignments := s.assignments ++ newRows,
          lastRow := s.lastRow, lastCur := s.lastCur,
          lastOldest := s.lastOldest, lastNewest := s.lastNewest } ∧
      (innerAssign tgtBin mkRow s m l).2 = m - (j : Int) ∧
      (j : Int) = min (max m 0) ((unassignedCount l s.assigned : Nat) : Int) ∧
      unassignedCount l ((innerAssign tgtBin mkRow s m l).1.assigned) =
        unassignedCount l s.assigned - j ∧
      (∀ a ∈ newRows, ∃ batch u, a = mkRow batch u) := by
  induction l generalizing s m with
  | nil =>
    refine ⟨0, [], [], ?_, ?_, ?_, ?_, ?_⟩
    · show s = _
      cases s
      simp [decBin_zero]
    · show m = m - ((0 : Nat) : Int)
      simp
    · simp [unassignedCount]
    · simp [unassignedCount]
    · intro a ha
      exact absurd ha (List.not_mem_nil a)
  | cons p rest ih =>
    rcases p with ⟨u, bs⟩
    simp only [List.map_cons, List.nodup_cons] at hN
    by_cases hc : s.assigned.contains u
    · have hu : u ∈ s.assigned := List.elem_iff.mp hc
      have hstep : innerAssign tgtBin mkRow s m ((u, bs) :: rest) =
          innerAssign tgtBin mkRow s m rest := by
        rw [innerAssign, if_pos hc]
      obtain ⟨j, newA, newRows, h1, h2, h3, h4, h5⟩ := ih s m hN.2
      refine ⟨j, newA, newRows, ?_, ?_, ?_, ?_, h5⟩
      · rw [hstep, h1]
      · rw [hstep, h2]
      · rw [unassignedCount_cons_mem _ _ _ _ hu]
        exact h3
      · rw [hstep, h1]
        rw [h1] at h4
        have huA : u ∈ newA ++ s.assigned := List.mem_append_right _ hu
        rw [unassignedCount_cons_mem _ _ _ _ huA, unassignedCount_cons_mem _ _ _ _ hu]
        exact h4
    · have hu : u ∉ s.assigned := fun hh => hc (List.elem_iff.mpr hh)
      by_cases hm : m ≤ 0
      · have hstep : innerAssign tgtBin mkRow s m ((u, bs) :: rest) = (s, m) := by
          rw [innerAssign, if_neg hc, if_pos hm]
        refine ⟨0, [], [], ?_, ?_, ?_, ?_, ?_⟩
        · rw [hstep]
          show s = _
          cases s
          simp [decBin_zero]
        · rw [hstep]
          show m = m - ((0 : Nat) : Int)
          simp
        · have : max m 0 = 0 := by omega
          simp [this]
        · rw [hstep]
          simp
        · intro a ha
          exact absurd ha (List.not_mem_nil a)
      · set s1 : PLoopState :=
          { s with
            assignments := s.assignments ++ bs.map (fun batch => mkRow batch u),
            assigned := u :: s.assigned,
            remaining := s.remaining - 1,
            temp := decBin s.temp tgtBin 1,
            pool := decBin s.pool tgtBin 1 } with hs1
        have hstep : innerAssign tgtBin mkRow s m ((u, bs) :: rest) =
            innerAssign tgtBin mkRow s1 (m - 1) rest := by
          rw [innerAssign, if_neg hc, if_neg hm]
        obtain ⟨j, newA, newRows, h1, h2, h3, h4, h5⟩ := ih s1 (m - 1) hN.2
        have hcast : ((j + 1 : Nat) : Int) = (j : Int) + 1 := by push_cast; ring
        have hext : unassignedCount rest (u :: s.assigned) = unassignedCount rest s.assigned :=
          unassignedCount_extend_not_mem u rest s.assigned hN.1
        have hcons : unassignedCount ((u, bs) :: rest) s.assigned =
            unassignedCount rest s.assigned + 1 :=
          unassignedCount_cons_not_mem u bs rest s.assigned hu
        have hjle : (j : Int) ≤ (unassignedCount rest s.assigned : Int) := by
          rw [h3, hs1]
          simp only [hext]
          omega
        refine ⟨j + 1, newA ++ [u], bs.map (fun batch => mkRow batch u) ++ newRows, ?_, ?_, ?_, ?_, ?_⟩
        · rw [hstep, h1, hs1]
          simp only [PLoopState.mk.injEq]
          refine ⟨?_, ?_, ?_, ?_, ?_, trivial, trivial, trivial, trivial⟩
          · rw [decBin_decBin, hcast]
            ring_nf
          · rw [decBin_decBin, hcast]
            ring_nf
          · rw [hcast]
            ring
          · rw [List.append_assoc]
            rfl
          · rw [List.append_assoc]
        · rw [hstep, h2, hcast]
          ring
        · rw [hcast, hcons]
          rw [h3, hs1] at *
          simp only [hext] at *
          push_cast
          omega
        · rw [hstep, h1]
          rw [h1] at h4
          have huA : u ∈ (newA ++ [u]) ++ s.assigned := by
            simp
          rw [hs1] at h4 ⊢
          simp only [List.append_assoc, List.cons_append, List.nil_append] at h4 ⊢
          rw [unassignedCount_cons_mem _ _ _ _ (by simp : u ∈ newA ++ u :: s.assigned)]
          rw [hcons]
          rw [hext] at h4
          rw [h4]
          omega
        · intro a ha
          rcases List.mem_append.mp ha with h | h
          · rcases List.mem_map.mp h with ⟨batch, hb, rfl⟩
            exact ⟨batch, u, rfl⟩
          · exact h5 a h

/-! ## Pool bookkeeping lemmas -/

theorem find?_decBin (l : List TgtRec) (x y : String) (k : Int) :
    (decBin l x k).find? (fun t => t.bin == y) =
      ((l.find? (fun t => t.bin == y)).map
        (fun t => if t.bin == x then { t with avail := t.avail - k } else t)) := by
  induction l with
  | nil => rfl
  | cons t rest ih =>
    simp only [decBin, List.map_cons, List.find?_cons] at ih ⊢
    have hbin : (if t.bin == x then { t with avail := t.avail - k } else t).bin = t.bin := by
      split <;> rfl
    by_cases hb : (t.bin == y) = true
    · simp only [hbin, hb, if_true]
      rfl
    · simp only [hbin, hb, Bool.false_eq_true, if_false]
      exact ih

theorem availOfFirst_decBin_found (l : List TgtRec) (x : String) (k : Int) (t : TgtRec)
    (hf : l.find? (fun u => u.bin == x) = some t) :
    availOfFirst (decBin l x k) x = t.avail - k := by
  have ht := List.find?_some hf
  simp only [beq_iff_eq] at ht
  rw [availOfFirst, find?_decBin, hf]
  simp [ht]

theorem availOfFirst_of_nodup (l : List TgtRec) (t : TgtRec)
    (hN : (l.map (fun u => u.bin)).Nodup) (ht : t ∈ l) :
    availOfFirst l t.bin = t.avail := by
  rw [availOfFirst, find?_bin_of_nodup l t hN ht]
  rfl

theorem nodup_bins_filter_sort (pool : List TgtRec) (p q : TgtRec → Bool)
    (le : TgtRec → TgtRec → Bool) (hN : (pool.map (fun u => u.bin)).Nodup) :
    ((sortByLe le ((pool.filter q).filter p)).map (fun u => u.bin)).Nodup := by
  have hsub : ((pool.filter q).filter p).Sublist pool :=
    (List.filter_sublist _).trans (List.filter_sublist _)
  have hsubm := hsub.map (fun u => u.bin)
  have hnd : (((pool.filter q).filter p).map (fun u => u.bin)).Nodup := hN.sublist hsubm
  have hperm := (sortByLe_perm le ((pool.filter q).filter p)).map (fun u => u.bin)
  exact hperm.nodup_iff.mpr hnd

/-- The temporary matching copy tracks the main pool: every temp row has
a main row of the same bin and the same remaining capacity. -/
def PoolSync (temp pool : List TgtRec) : Prop :=
  ∀ t ∈ temp, ∃ u ∈ pool, u.bin = t.bin ∧ u.avail = t.avail

theorem PoolSync_decBin (temp pool : List TgtRec) (x : String) (k : Int)
    (h : PoolSync temp pool) : PoolSync (decBin temp x k) (decBin pool x k) := by
  intro t' ht'
  rcases List.mem_map.mp ht' with ⟨t, ht, rfl⟩
  rcases h t ht with ⟨u, hu, hub, hua⟩
  refine ⟨if u.bin == x then { u with avail := u.avail - k } else u,
    List.mem_map_of_mem _ hu, ?_⟩
  by_cases hx : t.bin = x
  · have hux : u.bin = x := hub.trans hx
    simp [hx, hux, hub, hua]
  · have hux : ¬ u.bin = x := fun hh => hx (hub.symm.trans hh)
    simp [hx, hux, hub, hua]

theorem innerAssign_pool_bins (tgtBin : String) (mkRow : String → String → AssignmentRow)
    (l : List (String × List String)) (s : PLoopState) (m : Int) :
    ((innerAssign tgtBin mkRow s m l).1.pool.map (fun u => u.bin) =
      s.pool.map (fun u => u.bin)) ∧
    ((innerAssign tgtBin mkRow s m l).1.temp.map (fun u => u.bin) =
      s.temp.map (fun u => u.bin)) := by
  induction l generalizing s m with
  | nil => exact ⟨rfl, rfl⟩
  | cons p rest ih =>
    rcases p with ⟨u, bs⟩
    by_cases hc : s.assigned.contains u
    · rw [innerAssign, if_pos hc]
      exact ih s m
    · by_cases hm : m ≤ 0
      · rw [innerAssign, if_neg hc, if_pos hm]
        exact ⟨rfl, rfl⟩
      · rw [innerAssign, if_neg hc, if_neg hm]
        rcases ih _ (m - 1) with ⟨h1, h2⟩
        constructor
        · rw [h1]
          exact decBin_map_bin _ _ _
        · rw [h2]
          exact decBin_map_bin _ _ _

theorem innerAssign_rows_basic (tgtBin : String) (mkRow : String → String → AssignmentRow)
    (l : List (String × List String)) (s : PLoopState) (m : Int) :
    ∃ new, (innerAssign tgtBin mkRow s m l).1.assignments = s.assignments ++ new ∧
      ∀ a ∈ new, ∃ batch u, a = mkRow batch u := by
  induction l generalizing s m with
  | nil => exact ⟨[], (List.append_nil _).symm, by simp⟩
  | cons p rest ih =>
    rcases p with ⟨u, bs⟩
    by_cases hc : s.assigned.contains u
    · rw [innerAssign, if_pos hc]
      exact ih s m
    · by_cases hm : m ≤ 0
      · rw [innerAssign, if_neg hc, if_pos hm]
        exact ⟨[], (List.append_nil _).symm, by simp⟩
      · rw [innerAssign, if_neg hc, if_neg hm]
        rcases ih _ (m - 1) with ⟨new, h1, h2⟩
        refine ⟨bs.map (fun batch => mkRow batch u) ++ new, ?_, ?_⟩
        · rw [h1]
          simp [List.append_assoc]
        · intro a ha
          rcases List.mem_append.mp ha with h | h
          · rcases List.mem_map.mp h with ⟨batch, hb, rfl⟩
            exact ⟨batch, u, rfl⟩
          · exact h2 a h

/-! ## Split-move loop lemmas -/

theorem splitLoop_pool_bins (suB : List (String × List String)) (b : String) (g0 : SrcRec)
    (snapshot : List TgtRec) (s : PLoopState) :
    ((splitLoop suB b g0 snapshot s).pool.map (fun u => u.bin) = s.pool.map (fun u => u.bin)) ∧
    ((splitLoop suB b g0 snapshot s).temp.map (fun u => u.bin) = s.temp.map (fun u => u.bin)) := by
  induction snapshot generalizing s with
  | nil => exact ⟨rfl, rfl⟩
  | cons r rest ih =>
    by_cases h0 : s.remaining ≤ 0
    · rw [splitLoop, if_pos h0]
      exact ⟨rfl, rfl⟩
    · by_cases hm : min s.remaining (availOfFirst s.temp r.bin) ≤ 0
      · rw [splitLoop, if_neg h0, if_pos hm]
        exact ih _
      · rw [splitLoop, if_neg h0, if_neg hm]
        rcases ih ((innerAssign r.bin
            (splitRowOf b g0 r (availOfFirst s.temp r.bin) (oldestTargetOf s.temp r))
            { s with
              lastRow := some r
              lastCur := some (availOfFirst s.temp r.bin)
              lastOldest := some (oldestTargetOf s.temp r)
              lastNewest := some (newestTargetOf s.temp r) }
            (min s.remaining (availOfFirst s.temp r.bin)) suB).1) with ⟨h1, h2⟩
        rcases innerAssign_pool_bins r.bin
            (splitRowOf b g0 r (availOfFirst s.temp r.bin) (oldestTargetOf s.temp r))
            suB
            { s with
              lastRow := some r
              lastCur := some (availOfFirst s.temp r.bin)
              lastOldest := some (oldestTargetOf s.temp r)
              lastNewest := some (newestTargetOf s.temp r) }
            (min s.remaining (availOfFirst s.temp r.bin)) with ⟨h3, h4⟩
        exact ⟨h1.trans h3, h2.trans h4⟩

theorem splitLoop_rows (suB : List (String × List String)) (b : String) (g0 : SrcRec)
    (snapshot : List TgtRec) (s : PLoopState) :
    ∃ new, (splitLoop suB b g0 snapshot s).assignments = s.assignments ++ new ∧
      ∀ a ∈ new, ∃ r ∈ snapshot, a.tBin = r.bin ∧ a.sBin = b := by
  induction snapshot generalizing s with
  | nil => exact ⟨[], (List.append_nil _).symm, by simp⟩
  | cons r rest ih =>
    by_cases h0 : s.remaining ≤ 0
    · rw [splitLoop, if_pos h0]
      exact ⟨[], (List.append_nil _).symm, by simp⟩
    · by_cases hm : min s.remaining (availOfFirst s.temp r.bin) ≤ 0
      · rw [splitLoop, if_neg h0, if_pos hm]
        rcases ih _ with ⟨new, h1, h2⟩
        exact ⟨new, h1, fun a ha => by
          rcases h2 a ha with ⟨r', hr', ha2⟩
          exact ⟨r', List.mem_cons_of_mem r hr', ha2⟩⟩
      · rw [splitLoop, if_neg h0, if_neg hm]
        rcases innerAssign_rows_basic r.bin
            (splitRowOf b g0 r (availOfFirst s.temp r.bin) (oldestTargetOf s.temp r))
            suB
            { s with
              lastRow := some r
              lastCur := some (availOfFirst s.temp r.bin)
              lastOldest := some (oldestTargetOf s.temp r)
              lastNewest := some (newestTargetOf s.temp r) }
            (min s.remaining (availOfFirst s.temp r.bin)) with ⟨new1, hn1, hr1⟩
        rcases ih ((innerAssign r.bin
            (splitRowOf b g0 r (availOfFirst s.temp r.bin) (oldestTargetOf s.temp r))
            { s with
              lastRow := some r
              lastCur := some (availOfFirst s.temp r.bin)
              lastOldest := some (oldestTargetOf s.temp r)
              lastNewest := some (newestTargetOf s.temp r) }
            (min s.remaining (availOfFirst s.temp r.bin)) suB).1) with ⟨new2, hn2, hr2⟩
        refine ⟨new1 ++ new2, ?_, ?_⟩
        · rw [hn2, hn1, List.append_assoc]
        · intro a ha
          rcases List.mem_append.mp ha with h | h
          · rcases hr1 a h with ⟨batch, u, rfl⟩
            exact ⟨r, List.mem_cons_self r rest, rfl, rfl⟩
          · rcases hr2 a h with ⟨r', hr', ha2⟩
            exact ⟨r', List.mem_cons_of_mem r hr', ha2⟩

theorem availOfFirst_cases (l : List TgtRec) (x : String) :
    availOfFirst l x = 0 ∨
      ∃ t, l.find? (fun u => u.bin == x) = some t ∧ t ∈ l ∧ t.bin = x ∧
        availOfFirst l x = t.avail := by
  cases hf : l.find? (fun u => u.bin == x) with
  | none =>
    left
    rw [availOfFirst, hf]
    rfl
  | some t =>
    right
    have ht := List.find?_some hf
    simp only [beq_iff_eq] at ht
    exact ⟨t, rfl, List.mem_of_find?_eq_some hf, ht, by rw [availOfFirst, hf]; rfl⟩

theorem splitLoop_sync_nonneg (suB : List (String × List String)) (b : String) (g0 : SrcRec)
    (snapshot : List TgtRec) (s : PLoopState)
    (hSU : (suB.map Prod.fst).Nodup)
    (hN : (s.pool.map (fun u => u.bin)).Nodup)
    (hsync : PoolSync s.temp s.pool)
    (hnn : ∀ u ∈ s.pool, 0 ≤ u.avail) :
    PoolSync (splitLoop suB b g0 snapshot s).temp (splitLoop suB b g0 snapshot s).pool ∧
    (∀ u ∈ (splitLoop suB b g0 snapshot s).pool, 0 ≤ u.avail) := by
  induction snapshot generalizing s with
  | nil => exact ⟨hsync, hnn⟩
  | cons r rest ih =>
    by_cases h0 : s.remaining ≤ 0
    · rw [splitLoop, if_pos h0]
      exact ⟨hsync, hnn⟩
    · by_cases hm : min s.remaining (availOfFirst s.temp r.bin) ≤ 0
      · rw [splitLoop, if_neg h0, if_pos hm]
        exact ih _ hN hsync hnn
      · rw [splitLoop, if_neg h0, if_neg hm]
        set cur := availOfFirst s.temp r.bin with hcur
        set s2 : PLoopState :=
          { s with
            lastRow := some r
            lastCur := some cur
            lastOldest := some (oldestTargetOf s.temp r)
            lastNewest := some (newestTargetOf s.temp r) } with hs2
        set mk := splitRowOf b g0 r cur (oldestTargetOf s.temp r) with hmk
        obtain ⟨j, newA, newRows, h1, h2, h3, h4, h5⟩ :=
          innerAssign_spec r.bin mk suB s2 (min s.remaining cur) hSU
        -- the found temp row for bin r.bin has capacity cur > 0
        have hcur0 : 0 < cur := by omega
        rcases availOfFirst_cases s.temp r.bin with hz | ⟨t0, hf, ht0mem, ht0bin, ht0avail⟩
        · rw [← hcur] at hz
          omega
        · rw [← hcur] at ht0avail
          -- the unique pool row of bin r.bin has capacity cur as well
          rcases hsync t0 ht0mem with ⟨u0, hu0mem, hu0bin, hu0avail⟩
          have hjle : (j : Int) ≤ cur := by
            rw [h3]
            have : (min s.remaining cur) ⊔ 0 = min s.remaining cur := by omega
            omega
          have hnn2 : ∀ u ∈ (innerAssign r.bin mk s2 (min s.remaining cur) suB).1.pool,
              0 ≤ u.avail := by
            rw [h1]
            intro u' hu'
            rcases List.mem_map.mp hu' with ⟨u, hu, rfl⟩
            by_cases hub : u.bin == r.bin
            · simp only [hub, if_true]
              simp only [beq_iff_eq] at hub
              have : u = u0 := by
                apply List.inj_on_of_nodup_map hN hu hu0mem
                rw [hub, hu0bin, ht0bin]
              rw [this]
              show 0 ≤ u0.avail - (j : Int)
              omega
            · simp only [hub, Bool.false_eq_true, if_false]
              exact hnn u hu
          have hsync2 : PoolSync (innerAssign r.bin mk s2 (min s.remaining cur) suB).1.temp
              (innerAssign r.bin mk s2 (min s.remaining cur) suB).1.pool := by
            rw [h1]
            exact PoolSync_decBin _ _ _ _ hsync
          have hN2 : (((innerAssign r.bin mk s2 (min s.remaining cur) suB).1.pool).map
              (fun u => u.bin)).Nodup := by
            rw [(innerAssign_pool_bins r.bin mk suB s2 (min s.remaining cur)).1]
            exact hN
          exact ih _ hN2 hsync2 hnn2

theorem splitLoop_remaining (suB : List (String × List String)) (b : String) (g0 : SrcRec)
    (snapshot : List TgtRec) (s : PLoopState)
    (hSU : (suB.map Prod.fst).Nodup)
    (hNs : (snapshot.map (fun u => u.bin)).Nodup)
    (hfresh : ∀ r ∈ snapshot, availOfFirst s.temp r.bin = r.avail)
    (hnns : ∀ r ∈ snapshot, 0 ≤ r.avail)
    (h0 : 0 ≤ s.remaining)
    (hinv : s.remaining = (unassignedCount suB s.assigned : Int)) :
    (splitLoop suB b g0 snapshot s).remaining =
      max 0 (s.remaining - (snapshot.map (fun u => u.avail)).sum) := by
  induction snapshot generalizing s with
  | nil =>
    simp only [splitLoop, List.map_nil, List.sum_nil]
    omega
  | cons r rest ih =>
    have hsum_rest : (0 : Int) ≤ (rest.map (fun u => u.avail)).sum :=
      List.sum_nonneg (by
        intro x hx
        rcases List.mem_map.mp hx with ⟨u, hu, rfl⟩
        exact hnns u (List.mem_cons_of_mem r hu))
    have hravail : 0 ≤ r.avail := hnns r (List.mem_cons_self r rest)
    have hsum_cons : ((r :: rest).map (fun u => u.avail)).sum =
        r.avail + (rest.map (fun u => u.avail)).sum := by simp
    simp only [List.map_cons, List.nodup_cons] at hNs
    have hcur : availOfFirst s.temp r.bin = r.avail :=
      hfresh r (List.mem_cons_self r rest)
    by_cases hr0 : s.remaining ≤ 0
    · rw [splitLoop, if_pos hr0]
      show s.remaining = _
      omega
    · by_cases hm : min s.remaining (availOfFirst s.temp r.bin) ≤ 0
      · -- the target is already full: r.avail = 0
        rw [splitLoop, if_neg hr0, if_pos hm]
        rw [hcur] at hm
        have hz : r.avail = 0 := by omega
        set s2 : PLoopState :=
          { s with lastRow := some r, lastCur := some (availOfFirst s.temp r.bin) } with hs2
        have hp1 : s2.remaining = s.remaining := rfl
        have hp2 : s2.temp = s.temp := rfl
        have hp3 : s2.assigned = s.assigned := rfl
        have ihe := ih s2 hNs.2
          (by
            intro r2 hr2
            rw [hp2]
            exact hfresh r2 (List.mem_cons_of_mem r hr2))
          (fun r2 hr2 => hnns r2 (List.mem_cons_of_mem r hr2))
          (by rw [hp1]; exact h0)
          (by rw [hp1, hp3]; exact hinv)
        rw [ihe, hp1, hsum_cons, hz]
        omega
      · rw [splitLoop, if_neg hr0, if_neg hm]
        rw [hcur] at hm
        set cur := availOfFirst s.temp r.bin with hcurdef
        set s2 : PLoopState :=
          { s with
            lastRow := some r
            lastCur := some cur
            lastOldest := some (oldestTargetOf s.temp r)
            lastNewest := some (newestTargetOf s.temp r) } with hs2
        set mk := splitRowOf b g0 r cur (oldestTargetOf s.temp r) with hmk
        obtain ⟨j, newA, newRows, h1, h2, h3, h4, h5⟩ :=
          innerAssign_spec r.bin mk suB s2 (min s.remaining cur) hSU
        have huc : unassignedCount suB s2.assigned = unassignedCount suB s.assigned := rfl
        rw [huc] at h3
        have hjval : (j : Int) = min s.remaining r.avail := by omega
        have hjle : (j : Int) ≤ (unassignedCount suB s.assigned : Int) := by omega
        set s4 := (innerAssign r.bin mk s2 (min s.remaining cur) suB).1 with hs4
        have hrem4 : s4.remaining = s.remaining - (j : Int) := by rw [h1]
        have htemp4 : s4.temp = decBin s.temp r.bin (j : Int) := by rw [h1]
        have hass4 : unassignedCount suB s4.assigned =
            unassignedCount suB s.assigned - j := by
          rw [huc] at h4
          exact h4
        have hfresh4 : ∀ r2 ∈ rest, availOfFirst s4.temp r2.bin = r2.avail := by
          intro r2 hr2
          rw [htemp4]
          have hne : r2.bin ≠ r.bin := by
            intro he
            exact hNs.1 (he ▸ List.mem_map_of_mem (fun u => u.bin) hr2)
          rw [availOfFirst_decBin_ne s.temp r.bin r2.bin _ hne]
          exact hfresh r2 (List.mem_cons_of_mem r hr2)
        have h04 : 0 ≤ s4.remaining := by
          rw [hrem4]
          omega
        have hinv4 : s4.remaining = (unassignedCount suB s4.assigned : Int) := by
          rw [hrem4, hass4]
          have hjn : (j : Nat) ≤ unassignedCount suB s.assigned := by exact_mod_cast hjle
          push_cast [hjn]
          omega
        rw [ih s4 hNs.2 hfresh4 (fun r2 hr2 => hnns r2 (List.mem_cons_of_mem r hr2)) h04 hinv4]
        rw [hrem4, hsum_cons]
        omega

/-! ## Engine step lemmas -/

theorem mem_matchingFull (endcaps : List SrcRec) (st : EngineState) (b : String)
    (t : TgtRec) (ht : t ∈ matchingFull endcaps st b) :
    t ∈ st.availableBins ∧ (totalSUOf (binGroupOf endcaps b) : Int) ≤ t.avail ∧
      st.usedSourceBins.contains t.bin = false ∧ t.bin ≠ b ∧ t.batchDate.isSome := by
  rw [matchingFull] at ht
  cases hg : binGroupOf endcaps b with
  | nil =>
    rw [hg] at ht
    exact absurd ht (List.not_mem_nil t)
  | cons g0 gt =>
    rw [hg] at ht
    rw [mem_sortByLe] at ht
    rcases List.mem_filter.mp ht with ⟨ht2, hsome⟩
    rcases List.mem_filter.mp ht2 with ⟨hmem, hcond⟩
    simp only [Bool.and_eq_true, beq_iff_eq, bne_iff_ne, ne_eq, decide_eq_true_eq,
      Bool.not_eq_true'] at hcond
    exact ⟨hmem, hcond.1.2, hcond.2, hcond.1.1.2, hsome⟩

theorem mem_matchingSplit (endcaps : List SrcRec) (st : EngineState) (b : String)
    (t : TgtRec) (ht : t ∈ matchingSplit endcaps st b) :
    t ∈ st.availableBins ∧ st.usedSourceBins.contains t.bin = false ∧ t.bin ≠ b ∧
      t.batchDate.isSome := by
  rw [matchingSplit] at ht
  cases hg : binGroupOf endcaps b with
  | nil =>
    rw [hg] at ht
    exact absurd ht (List.not_mem_nil t)
  | cons g0 gt =>
    rw [hg] at ht
    rw [mem_sortByLe] at ht
    rcases List.mem_filter.mp ht with ⟨ht2, hsome⟩
    rcases List.mem_filter.mp ht2 with ⟨hmem, hcond⟩
    simp only [Bool.and_eq_true, beq_iff_eq, bne_iff_ne, ne_eq,
      Bool.not_eq_true'] at hcond
    exact ⟨hmem, hcond.2, hcond.1.2, hsome⟩

theorem processBinFull_shape (endcaps : List SrcRec) (st : EngineState) (b : String) :
    processBinFull endcaps st b = st ∨
    ∃ t g0 gt, binGroupOf endcaps b = g0 :: gt ∧ t ∈ matchingFull endcaps st b ∧
      processBinFull endcaps st b = commitFull endcaps st b g0 t := by
  cases hg : binGroupOf endcaps b with
  | nil =>
    left
    simp only [processBinFull, hg]
  | cons g0 gt =>
    cases hf : (matchingFull endcaps st b).find?
        (fun _ => dateCompatible (binGroupOf endcaps b) (matchingFull endcaps st b)) with
    | none =>
      left
      rw [hg] at hf
      simp only [processBinFull, hg, hf]
    | some t =>
      right
      refine ⟨t, g0, gt, rfl, List.mem_of_find?_eq_some hf, ?_⟩
      rw [hg] at hf
      simp only [processBinFull, hg, hf]

theorem splitFinish_shape (st : EngineState) (b : String) (g0 : SrcRec) (g : List SrcRec)
    (s : PLoopState) :
    (splitFinish st b g0 g s).availableBins = s.pool ∧
    (splitFinish st b g0 g s).assignments = s.assignments ∧
    ((s.remaining = 0 ∧
        (splitFinish st b g0 g s).usedSourceBins = b :: st.usedSourceBins ∧
        (splitFinish st b g0 g s).summary = st.summary ++ [splitSummaryOf b g0 g s]) ∨
      (¬ s.remaining = 0 ∧
        (splitFinish st b g0 g s).usedSourceBins = st.usedSourceBins ∧
        (splitFinish st b g0 g s).summary = st.summary)) := by
  rw [splitFinish]
  by_cases h : s.remaining = 0
  · have hb : (s.remaining == 0) = true := beq_iff_eq.mpr h
    rw [if_pos hb]
    exact ⟨rfl, rfl, Or.inl ⟨h, rfl, rfl⟩⟩
  · have hb : ¬ (s.remaining == 0) = true := by
      simp [h]
    rw [if_neg hb]
    exact ⟨rfl, rfl, Or.inr ⟨h, rfl, rfl⟩⟩

theorem processBinSplit_shape (endcaps : List SrcRec) (st : EngineState) (b : String) :
    processBinSplit endcaps st b = st ∨
    ∃ g0 gt, binGroupOf endcaps b = g0 :: gt ∧
      dateCompatible (binGroupOf endcaps b) (matchingSplit endcaps st b) = true ∧
      (totalSUOf (binGroupOf endcaps b) : Int) ≤
        ((matchingSplit endcaps st b).map (fun t => t.avail)).sum ∧
      processBinSplit endcaps st b =
        splitFinish st b g0 (binGroupOf endcaps b)
          (splitLoop (suBatchesOf (binGroupOf endcaps b)) b g0 (matchingSplit endcaps st b)
            (initPLoop st (binGroupOf endcaps b) (matchingSplit endcaps st b))) := by
  cases hg : binGroupOf endcaps b with
  | nil =>
    left
    simp only [processBinSplit, hg]
  | cons g0 gt =>
    cases hdc : dateCompatible (g0 :: gt) (matchingSplit endcaps st b) with
    | false =>
      left
      simp only [processBinSplit, hg, hdc, Bool.not_false, if_true]
    | true =>
      by_cases hsum : ((matchingSplit endcaps st b).map (fun t => t.avail)).sum <
          (totalSUOf (g0 :: gt) : Int)
      · left
        simp only [processBinSplit, hg, hdc, Bool.not_true, Bool.false_eq_true, if_false]
        rw [if_pos hsum]
      · right
        refine ⟨g0, gt, rfl, rfl, by omega, ?_⟩
        simp only [processBinSplit, hg, hdc, Bool.not_true, Bool.false_eq_true, if_false]
        rw [if_neg hsum]

theorem suBatchesOf_fst_nodup (g : List SrcRec) :
    ((suBatchesOf g).map Prod.fst).Nodup := by
  rw [suBatchesOf, List.map_map]
  have hco : (Prod.fst ∘ fun u =>
      (u, (g.filter (fun r => r.unit == u)).map (fun r => r.rawBatch))) = id := rfl
  rw [hco, List.map_id]
  exact (nodup_sortByLe _ _).mpr (List.nodup_dedup _)

theorem suBatchesOf_length (g : List SrcRec) :
    (suBatchesOf g).length = totalSUOf g := by
  rw [suBatchesOf, List.length_map, length_sortByLe]
  rfl

theorem dateCompatible_false_of_none (g : List SrcRec) (pool : List TgtRec) (r : SrcRec)
    (hr : r ∈ g) (hd : r.batchDate = none) : dateCompatible g pool = false := by
  rw [dateCompatible]
  rw [List.all_eq_false]
  refine ⟨r, hr, ?_⟩
  rw [hd]
  simp

theorem processBin_pool_bins (split : Bool) (endcaps : List SrcRec) (st : EngineState)
    (b : String) :
    (processBin split endcaps st b).availableBins.map (fun u => u.bin) =
      st.availableBins.map (fun u => u.bin) := by
  rw [processBin]
  by_cases hs : split = true
  · rw [if_pos hs]
    rcases processBinSplit_shape endcaps st b with h | ⟨g0, gt, hg, _, _, he⟩
    · rw [h]
    · rw [he, (splitFinish_shape _ _ _ _ _).1]
      rw [(splitLoop_pool_bins _ _ _ _ _).1]
      rfl
  · rw [if_neg hs]
    rcases processBinFull_shape endcaps st b with h | ⟨t, g0, gt, hg, ht, he⟩
    · rw [h]
    · rw [he, commitFull]
      exact decBin_map_bin _ _ _

theorem processBin_nonneg (split : Bool) (endcaps : List SrcRec) (st : EngineState)
    (b : String) (hN : (st.availableBins.map (fun u => u.bin)).Nodup)
    (hnn : ∀ u ∈ st.availableBins, 0 ≤ u.avail) :
    ∀ u ∈ (processBin split endcaps st b).availableBins, 0 ≤ u.avail := by
  rw [processBin]
  by_cases hs : split = true
  · rw [if_pos hs]
    rcases processBinSplit_shape endcaps st b with h | ⟨g0, gt, hg, _, _, he⟩
    · rw [h]
      exact hnn
    · rw [he, (splitFinish_shape _ _ _ _ _).1]
      have hsync : PoolSync (initPLoop st (binGroupOf endcaps b) (matchingSplit endcaps st b)).temp
          (initPLoop st (binGroupOf endcaps b) (matchingSplit endcaps st b)).pool := by
        intro t ht
        exact ⟨t, (mem_matchingSplit endcaps st b t ht).1, rfl, rfl⟩
      exact (splitLoop_sync_nonneg _ _ _ _ _ (suBatchesOf_fst_nodup _) hN hsync hnn).2
  · rw [if_neg hs]
    rcases processBinFull_shape endcaps st b with h | ⟨t, g0, gt, hg, ht, he⟩
    · rw [h]
      exact hnn
    · rw [he, commitFull]
      intro u' hu'
      rcases List.mem_map.mp hu' with ⟨u, hu, rfl⟩
      rcases mem_matchingFull endcaps st b t ht with ⟨htp, hcap, _, _, _⟩
      by_cases hub : (u.bin == t.bin) = true
      · simp only [hub, if_true]
        simp only [beq_iff_eq] at hub
        have : u = t := List.inj_on_of_nodup_map hN hu htp hub
        subst this
        show 0 ≤ u.avail - _
        omega
      · simp only [hub, Bool.false_eq_true, if_false]
        exact hnn u hu

theorem processBin_commit_shape (split : Bool) (endcaps : List SrcRec) (st : EngineState)
    (b : String) :
    ((processBin split endcaps st b).summary = st.summary ∧
      (processBin split endcaps st b).usedSourceBins = st.usedSourceBins) ∨
    (∃ e, (processBin split endcaps st b).summary = st.summary ++ [e] ∧ e.sBin = b ∧
      (processBin split endcaps st b).usedSourceBins = b :: st.usedSourceBins) := by
  rw [processBin]
  by_cases hs : split = true
  · rw [if_pos hs]
    rcases processBinSplit_shape endcaps st b with h | ⟨g0, gt, hg, _, _, he⟩
    · left
      rw [h]
      exact ⟨rfl, rfl⟩
    · rcases (splitFinish_shape st b g0 (binGroupOf endcaps b)
          (splitLoop (suBatchesOf (binGroupOf endcaps b)) b g0 (matchingSplit endcaps st b)
            (initPLoop st (binGroupOf endcaps b) (matchingSplit endcaps st b)))).2.2 with
        ⟨h0, hu, hsum⟩ | ⟨h0, hu, hsum⟩
      · right
        rw [he]
        exact ⟨_, hsum, rfl, hu⟩
      · left
        rw [he]
        exact ⟨hsum, hu⟩
  · rw [if_neg hs]
    rcases processBinFull_shape endcaps st b with h | ⟨t, g0, gt, hg, ht, he⟩
    · left
      rw [h]
      exact ⟨rfl, rfl⟩
    · right
      rw [he, commitFull]
      exact ⟨_, rfl, rfl, rfl⟩

theorem processBin_new_rows (split : Bool) (endcaps : List SrcRec) (st : EngineState)
    (b : String) :
    ∃ new, (processBin split endcaps st b).assignments = st.assignments ++ new ∧
      ∀ a ∈ new, a.sBin = b ∧ st.usedSourceBins.contains a.tBin = false := by
  rw [processBin]
  by_cases hs : split = true
  · rw [if_pos hs]
    rcases processBinSplit_shape endcaps st b with h | ⟨g0, gt, hg, _, _, he⟩
    · rw [h]
      exact ⟨[], (List.append_nil _).symm, by simp⟩
    · rw [he, (splitFinish_shape _ _ _ _ _).2.1]
      rcases splitLoop_rows (suBatchesOf (binGroupOf endcaps b)) b g0
          (matchingSplit endcaps st b)
          (initPLoop st (binGroupOf endcaps b) (matchingSplit endcaps st b)) with
        ⟨new, h1, h2⟩
      refine ⟨new, h1, ?_⟩
      intro a ha
      rcases h2 a ha with ⟨r, hr, htb, hsb⟩
      refine ⟨hsb, ?_⟩
      rw [htb]
      exact (mem_matchingSplit endcaps st b r hr).2.1
  · rw [if_neg hs]
    rcases processBinFull_shape endcaps st b with h | ⟨t, g0, gt, hg, ht, he⟩
    · rw [h]
      exact ⟨[], (List.append_nil _).symm, by simp⟩
    · rw [he, commitFull]
      refine ⟨_, rfl, ?_⟩
      intro a ha
      rw [fullMoveRows] at ha
      rcases List.mem_flatMap.mp ha with ⟨p, hp, ha2⟩
      rcases List.mem_map.mp ha2 with ⟨batch, hb2, rfl⟩
      exact ⟨rfl, (mem_matchingFull endcaps st b t ht).2.2.1⟩

theorem processBin_skip_no_date (split : Bool) (endcaps : List SrcRec) (st : EngineState)
    (b : String) (r : SrcRec) (hr : r ∈ binGroupOf endcaps b) (hd : r.batchDate = none) :
    processBin split endcaps st b = st := by
  rw [processBin]
  by_cases hs : split = true
  · rw [if_pos hs]
    cases hg : binGroupOf endcaps b with
    | nil => simp only [processBinSplit, hg]
    | cons g0 gt =>
      rw [hg] at hr
      have hdc : dateCompatible (g0 :: gt) (matchingSplit endcaps st b) = false :=
        dateCompatible_false_of_none _ _ r hr hd
      simp only [processBinSplit, hg, hdc, Bool.not_false, if_true]
  · rw [if_neg hs]
    cases hg : binGroupOf endcaps b with
    | nil => simp only [processBinFull, hg]
    | cons g0 gt =>
      rw [hg] at hr
      have hdc : dateCompatible (g0 :: gt) (matchingFull endcaps st b) = false :=
        dateCompatible_false_of_none _ _ r hr hd
      have hf : (matchingFull endcaps st b).find?
          (fun _ => dateCompatible (g0 :: gt) (matchingFull endcaps st b)) = none := by
        rw [List.find?_eq_none]
        intro x hx
        rw [hdc]
        exact Bool.false_ne_true
      simp only [processBinFull, hg, hf]

/-! ## Run-level lemmas -/

theorem runEngine_cons (split : Bool) (endcaps : List SrcRec) (b : String)
    (order : List String) (st : EngineState) :
    runEngine split endcaps (b :: order) st =
      runEngine split endcaps order
        (if st.usedSourceBins.contains b then st else processBin split endcaps st b) := rfl

theorem runEngine_append (split : Bool) (endcaps : List SrcRec)
    (l1 l2 : List String) (st : EngineState) :
    runEngine split endcaps (l1 ++ l2) st =
      runEngine split endcaps l2 (runEngine split endcaps l1 st) :=
  List.foldl_append _ _ _ _

theorem runEngine_pool_bins (split : Bool) (endcaps : List SrcRec)
    (order : List String) (st : EngineState) :
    (runEngine split endcaps order st).availableBins.map (fun u => u.bin) =
      st.availableBins.map (fun u => u.bin) := by
  induction order generalizing st with
  | nil => rfl
  | cons b rest ih =>
    rw [runEngine_cons]
    by_cases hc : st.usedSourceBins.contains b
    · rw [if_pos hc]
      exact ih st
    · rw [if_neg hc]
      exact (ih _).trans (processBin_pool_bins split endcaps st b)

theorem runEngine_nonneg (split : Bool) (endcaps : List SrcRec)
    (order : List String) (st : EngineState)
    (hN : (st.availableBins.map (fun u => u.bin)).Nodup)
    (hnn : ∀ u ∈ st.availableBins, 0 ≤ u.avail) :
    ∀ u ∈ (runEngine split endcaps order st).availableBins, 0 ≤ u.avail := by
  induction order generalizing st with
  | nil => exact hnn
  | cons b rest ih =>
    rw [runEngine_cons]
    by_cases hc : st.usedSourceBins.contains b
    · rw [if_pos hc]
      exact ih st hN hnn
    · rw [if_neg hc]
      have hN2 : ((processBin split endcaps st b).availableBins.map (fun u => u.bin)).Nodup := by
        rw [processBin_pool_bins]
        exact hN
      exact ih _ hN2 (processBin_nonneg split endcaps st b hN hnn)

theorem contains_cons_of_contains (l : List String) (x y : String)
    (h : l.contains x = true) : (y :: l).contains x = true := by
  rw [List.elem_iff] at h ⊢
  exact List.mem_cons_of_mem y h

theorem runEngine_summary_inv (split : Bool) (endcaps : List SrcRec)
    (order : List String) (st : EngineState)
    (h1 : ∀ e ∈ st.summary, st.usedSourceBins.contains e.sBin = true)
    (h2 : (st.summary.map (fun e => e.sBin)).Nodup) :
    (∀ e ∈ (runEngine split endcaps order st).summary,
      (runEngine split endcaps order st).usedSourceBins.contains e.sBin = true) ∧
    ((runEngine split endcaps order st).summary.map (fun e => e.sBin)).Nodup := by
  induction order generalizing st with
  | nil => exact ⟨h1, h2⟩
  | cons b rest ih =>
    rw [runEngine_cons]
    by_cases hc : st.usedSourceBins.contains b
    · rw [if_pos hc]
      exact ih st h1 h2
    · rw [if_neg hc]
      rcases processBin_commit_shape split endcaps st b with ⟨hsum, hused⟩ | ⟨e, hsum, hes, hused⟩
      · exact ih _ (by rw [hsum, hused]; exact h1) (by rw [hsum]; exact h2)
      · refine ih _ ?_ ?_
        · intro e' he'
          rw [hsum] at he'
          rw [hused]
          rcases List.mem_append.mp he' with h | h
          · exact contains_cons_of_contains _ _ _ (h1 e' h)
          · rcases List.mem_singleton.mp h with rfl
            rw [hes]
            simp [List.elem_iff]
        · rw [hsum]
          rw [List.map_append]
          have hb : b ∉ st.summary.map (fun e => e.sBin) := by
            intro hmem
            rcases List.mem_map.mp hmem with ⟨e', he', hsb⟩
            have := h1 e' he'
            rw [hsb] at this
            exact hc this
          simp only [List.map_cons, List.map_nil, hes]
          rw [List.nodup_append]
          refine ⟨h2, List.nodup_singleton b, ?_⟩
          intro x hx
          simp only [List.mem_singleton]
          intro he
          exact hb (he ▸ hx)

theorem runEngine_never_bad_bin (split : Bool) (endcaps : List SrcRec)
    (order : List String) (st : EngineState) (b : String)
    (hbad : ∃ r ∈ binGroupOf endcaps b, r.batchDate = none)
    (h1 : ∀ e ∈ st.summary, e.sBin ≠ b)
    (h2 : ∀ a ∈ st.assignments, a.sBin ≠ b) :
    (∀ e ∈ (runEngine split endcaps order st).summary, e.sBin ≠ b) ∧
    (∀ a ∈ (runEngine split endcaps order st).assignments, a.sBin ≠ b) := by
  induction order generalizing st with
  | nil => exact ⟨h1, h2⟩
  | cons b' rest ih =>
    rw [runEngine_cons]
    by_cases hc : st.usedSourceBins.contains b'
    · rw [if_pos hc]
      exact ih st h1 h2
    · rw [if_neg hc]
      by_cases hbb : b' = b
      · subst hbb
        rcases hbad with ⟨r, hr, hd⟩
        rw [processBin_skip_no_date split endcaps st b' r hr hd]
        exact ih st h1 h2
      · refine ih _ ?_ ?_
        · intro e he
          rcases processBin_commit_shape split endcaps st b' with ⟨hsum, _⟩ | ⟨e', hsum, hes, _⟩
          · rw [hsum] at he
            exact h1 e he
          · rw [hsum] at he
            rcases List.mem_append.mp he with h | h
            · exact h1 e h
            · rcases List.mem_singleton.mp h with rfl
              rw [hes]
              exact hbb
        · intro a ha
          rcases processBin_new_rows split endcaps st b' with ⟨new, hass, hrows⟩
          rw [hass] at ha
          rcases List.mem_append.mp ha with h | h
          · exact h2 a h
          · rw [(hrows a h).1]
            exact hbb

/-! ## Claim theorems -/

theorem initAvailable_nonneg (moveIntoTypes : List String) (targets : List TgtRec) :
    ∀ u ∈ initAvailable moveIntoTypes targets, 0 ≤ u.avail := by
  intro u hu
  rcases List.mem_filter.mp hu with ⟨hmem, hcond⟩
  simp only [Bool.and_eq_true, decide_eq_true_eq] at hcond
  omega

theorem runPipeline_fst (selT movT : List String) (split : Bool)
    (srcRows : List SourceRow) (tgtRows : List TargetRow) :
    (runPipeline selT movT split srcRows tgtRows).1 =
      runEngine split (normalizeSources selT srcRows) (binOrder (normalizeSources selT srcRows))
        (mkInit (initAvailable movT (normalizeTargets tgtRows))) := rfl

/-- C1: under either move policy and for every processing order, no
commit ever drives a target's available capacity negative: every pool
row keeps a nonnegative `Avail SU` through the whole run, provided the
input has one row per target bin (distinct bin ids) as the data model
requires.  The second conjunct instantiates this for the full pipeline,
whose initial pool only contains rows with positive capacity. -/
theorem c1_capacity_never_negative :
    (∀ (split : Bool) (endcaps : List SrcRec) (order : List String) (pool : List TgtRec),
      (pool.map (fun u => u.bin)).Nodup → (∀ u ∈ pool, 0 ≤ u.avail) →
      ∀ u ∈ (runEngine split endcaps order (mkInit pool)).availableBins, 0 ≤ u.avail) ∧
    (∀ (selT movT : List String) (split : Bool) (srcRows : List SourceRow)
      (tgtRows : List TargetRow),
      ((initAvailable movT (normalizeTargets tgtRows)).map (fun u => u.bin)).Nodup →
      ∀ u ∈ (runPipeline selT movT split srcRows tgtRows).1.availableBins, 0 ≤ u.avail) := by
  constructor
  · intro split endcaps order pool hN hnn
    exact runEngine_nonneg split endcaps order (mkInit pool) hN hnn
  · intro selT movT split srcRows tgtRows hN
    rw [runPipeline_fst]
    exact runEngine_nonneg _ _ _ _ hN (initAvailable_nonneg movT _)

/-- C5: a source record whose (trimmed) batch code is shorter than 10
characters has no parsed batch date, and its bin is never committed in
the run: no summary row and no assignment row carries that bin as its
source, under either move policy. -/
theorem c5_short_batch_never_assigned (selT movT : List String) (split : Bool)
    (srcRows : List SourceRow) (tgtRows : List TargetRow) (r : SrcRec)
    (hr : r ∈ normalizeSources selT srcRows) (hshort : r.batch.length < 10) :
    (∀ e ∈ (runPipeline selT movT split srcRows tgtRows).1.summary, e.sBin ≠ r.bin) ∧
    (∀ a ∈ (runPipeline selT movT split srcRows tgtRows).1.assignments, a.sBin ≠ r.bin) := by
  have hdate : r.batchDate = none := by
    rw [normalizeSources] at hr
    rcases List.mem_map.mp hr with ⟨r0, hr0, rfl⟩
    show (parse_batch (pyStrip r0.batch)).2 = none
    have hlen : ¬ (10 ≤ (pyStrip r0.batch).length) := by
      have : (pyStrip r0.batch).length < 10 := hshort
      omega
    rw [parse_batch, if_neg hlen]
  have hbad : ∃ rr ∈ binGroupOf (normalizeSources selT srcRows) r.bin, rr.batchDate = none := by
    refine ⟨r, ?_, hdate⟩
    rw [binGroupOf, List.mem_filter]
    exact ⟨hr, by simp⟩
  rw [runPipeline_fst]
  exact runEngine_never_bad_bin split _ _ _ r.bin hbad (by simp [mkInit]) (by simp [mkInit])

theorem matchingSplit_bins_nodup (endcaps : List SrcRec) (st : EngineState) (b : String)
    (hN : (st.availableBins.map (fun u => u.bin)).Nodup) :
    ((matchingSplit endcaps st b).map (fun u => u.bin)).Nodup := by
  rw [matchingSplit]
  cases binGroupOf endcaps b with
  | nil => simp
  | cons g0 gt => exact nodup_bins_filter_sort _ _ _ _ hN

theorem unassignedCount_nil_assigned (l : List (String × List String)) :
    unassignedCount l [] = l.length := by
  simp [unassignedCount]

/-- C7: a split move is atomic.  With one pool row per target bin, the
step over one source bin either leaves the whole engine state untouched
(no rows, no summary, no capacity change, not marked consumed), or it
commits the bin in full: the bin joins the consumed set and exactly one
summary row for it is appended. -/
theorem c7_split_move_atomic (endcaps : List SrcRec) (st : EngineState) (b : String)
    (hN : (st.availableBins.map (fun u => u.bin)).Nodup)
    (hnn : ∀ u ∈ st.availableBins, 0 ≤ u.avail) :
    processBinSplit endcaps st b = st ∨
    ∃ e, e.sBin = b ∧
      (processBinSplit endcaps st b).summary = st.summary ++ [e] ∧
      (processBinSplit endcaps st b).usedSourceBins = b :: st.usedSourceBins := by
  rcases processBinSplit_shape endcaps st b with h | ⟨g0, gt, hg, hdc, hsum, he⟩
  · exact Or.inl h
  · right
    have hNs : ((matchingSplit endcaps st b).map (fun u => u.bin)).Nodup :=
      matchingSplit_bins_nodup endcaps st b hN
    have hfresh : ∀ r ∈ matchingSplit endcaps st b,
        availOfFirst (initPLoop st (binGroupOf endcaps b) (matchingSplit endcaps st b)).temp
          r.bin = r.avail := by
      intro r hrr
      exact availOfFirst_of_nodup _ r hNs hrr
    have hnns : ∀ r ∈ matchingSplit endcaps st b, 0 ≤ r.avail := by
      intro r hrr
      exact hnn r (mem_matchingSplit endcaps st b r hrr).1
    have hinv : (initPLoop st (binGroupOf endcaps b) (matchingSplit endcaps st b)).remaining =
        ((unassignedCount (suBatchesOf (binGroupOf endcaps b))
          (initPLoop st (binGroupOf endcaps b) (matchingSplit endcaps st b)).assigned : Nat) : Int) := by
      show ((totalSUOf (binGroupOf endcaps b) : Nat) : Int) =
        ((unassignedCount (suBatchesOf (binGroupOf endcaps b)) [] : Nat) : Int)
      rw [unassignedCount_nil_assigned, suBatchesOf_length]
    have hrem := splitLoop_remaining (suBatchesOf (binGroupOf endcaps b)) b g0
      (matchingSplit endcaps st b)
      (initPLoop st (binGroupOf endcaps b) (matchingSplit endcaps st b))
      (suBatchesOf_fst_nodup _) hNs hfresh hnns (by
        show (0 : Int) ≤ ((totalSUOf (binGroupOf endcaps b) : Nat) : Int)
        exact Int.natCast_nonneg _) hinv
    have hzero : (splitLoop (suBatchesOf (binGroupOf endcaps b)) b g0
        (matchingSplit endcaps st b)
        (initPLoop st (binGroupOf endcaps b) (matchingSplit endcaps st b))).remaining = 0 := by
      rw [hrem]
      show max 0 (((totalSUOf (binGroupOf endcaps b) : Nat) : Int) - _) = 0
      omega
    rcases (splitFinish_shape st b g0 (binGroupOf endcaps b)
        (splitLoop (suBatchesOf (binGroupOf endcaps b)) b g0 (matchingSplit endcaps st b)
          (initPLoop st (binGroupOf endcaps b) (matchingSplit endcaps st b)))).2.2 with
      ⟨h0, hu, hsumm⟩ | ⟨h0, _, _⟩
    · rw [he]
      exact ⟨_, rfl, hsumm, hu⟩
    · exact absurd hzero h0

/-- C3: no bin id is ever committed as a source twice in a run, and once
a source bin is committed it is never used as the target of any later
assignment row: a row appended at step `n+1` never points at a source
committed in the first `n` steps.  Both hold for either move policy and
any processing order. -/
theorem c3_committed_source_never_reused (split : Bool) (endcaps : List SrcRec)
    (order : List String) (pool : List TgtRec) :
    (((runEngine split endcaps order (mkInit pool)).summary.map (fun e => e.sBin)).Nodup) ∧
    (∀ n : Nat, ∀ a ∈ (runEngine split endcaps (order.take (n + 1)) (mkInit pool)).assignments,
      a ∉ (runEngine split endcaps (order.take n) (mkInit pool)).assignments →
      ∀ e ∈ (runEngine split endcaps (order.take n) (mkInit pool)).summary, a.tBin ≠ e.sBin) := by
  constructor
  · exact (runEngine_summary_inv split endcaps order (mkInit pool)
      (by simp [mkInit]) (by simp [mkInit])).2
  · intro n a ha hnot e he htb
    by_cases hn : n < order.length
    · have htake : order.take (n + 1) = order.take n ++ [order.get ⟨n, hn⟩] := by
        rw [List.take_succ]
        have : order[n]? = some (order.get ⟨n, hn⟩) := by
          rw [List.getElem?_eq_getElem hn]
          rfl
        rw [this]
        rfl
      rw [htake, runEngine_append] at ha
      set stn := runEngine split endcaps (order.take n) (mkInit pool) with hstn
      have hinv := runEngine_summary_inv split endcaps (order.take n) (mkInit pool)
        (by simp [mkInit]) (by simp [mkInit])
      rw [runEngine_cons] at ha
      by_cases hc : stn.usedSourceBins.contains (order.get ⟨n, hn⟩)
      · rw [if_pos hc] at ha
        exact hnot ha
      · rw [if_neg hc] at ha
        rcases processBin_new_rows split endcaps stn (order.get ⟨n, hn⟩) with ⟨new, hass, hrows⟩
        rw [show runEngine split endcaps []
            (processBin split endcaps stn (order.get ⟨n, hn⟩)) =
            processBin split endcaps stn (order.get ⟨n, hn⟩) from rfl] at ha
        rw [hass] at ha
        rcases List.mem_append.mp ha with h | h
        · exact hnot h
        · have hntb := (hrows a h).2
          have hsb := hinv.1 e he
          rw [htb] at hntb
          rw [hsb] at hntb
          exact absurd hntb (by decide)
    · have htake : order.take (n + 1) = order.take n := by
        rw [List.take_of_length_le (by omega), List.take_of_length_le (by omega)]
      rw [htake] at ha
      exact hnot ha

theorem dateCompatible_of_window (g : List SrcRec) (pool : List TgtRec)
    (hdates : ∀ r ∈ g, r.batchDate.isSome = true)
    (hwindow : ∀ t ∈ pool, ∀ r ∈ g, ∀ d e : Int,
      r.batchDate = some d → t.batchDate = some e → (e - d).natAbs ≤ 364) :
    dateCompatible g pool = true := by
  rw [dateCompatible, List.all_eq_true]
  intro r hr
  cases hrd : r.batchDate with
  | none =>
    have := hdates r hr
    rw [hrd] at this
    exact absurd this (by decide)
  | some d =>
    rw [List.all_eq_true]
    intro t ht
    cases htd : t.batchDate with
    | none => rfl
    | some e2 =>
      simp only [decide_eq_true_eq]
      exact hwindow t ht r hr d e2 hrd htd

/-- C2 (amended): in full-move mode, if every unit of the source bin has
a known batch date, the candidate pool is nonempty, and every pool
member is within 364 days of every source unit's date, then exactly one
pairing is committed: one summary row is appended (for this source bin,
against some pool member), the bin joins the consumed set, and the
consumed target's first pool row loses exactly the bin's unique-unit
count of capacity. -/
theorem c2_full_move_commits (endcaps : List SrcRec) (st : EngineState) (b : String)
    (hN : (st.availableBins.map (fun u => u.bin)).Nodup)
    (hm : matchingFull endcaps st b ≠ [])
    (hdates : ∀ r ∈ binGroupOf endcaps b, r.batchDate.isSome = true)
    (hwindow : ∀ t ∈ matchingFull endcaps st b, ∀ r ∈ binGroupOf endcaps b, ∀ d e : Int,
      r.batchDate = some d → t.batchDate = some e → (e - d).natAbs ≤ 364) :
    ∃ t ∈ matchingFull endcaps st b, ∃ e,
      (processBinFull endcaps st b).summary = st.summary ++ [e] ∧
      e.sBin = b ∧ e.startAvail = t.avail ∧
      e.movedSU = (totalSUOf (binGroupOf endcaps b) : Int) ∧
      (processBinFull endcaps st b).usedSourceBins = b :: st.usedSourceBins ∧
      availOfFirst (processBinFull endcaps st b).availableBins t.bin =
        t.avail - (totalSUOf (binGroupOf endcaps b) : Int) := by
  have hdc : dateCompatible (binGroupOf endcaps b) (matchingFull endcaps st b) = true :=
    dateCompatible_of_window _ _ hdates hwindow
  have hgne : binGroupOf endcaps b ≠ [] := by
    intro hgnil
    apply hm
    rw [matchingFull, hgnil]
  obtain ⟨g0, gt, hg⟩ := List.exists_cons_of_ne_nil hgne
  obtain ⟨m0, ms, hml⟩ := List.exists_cons_of_ne_nil hm
  have hdc2 := hdc
  rw [hml] at hdc2
  have hfind : (matchingFull endcaps st b).find?
      (fun _ => dateCompatible (binGroupOf endcaps b) (matchingFull endcaps st b)) =
      some m0 := by
    rw [hml, List.find?_cons, hdc2]
  have hfind2 := hfind
  rw [hg] at hfind2
  have hpf : processBinFull endcaps st b = commitFull endcaps st b g0 m0 := by
    simp only [processBinFull, hg, hfind2]
  have hm0 : m0 ∈ matchingFull endcaps st b := by
    rw [hml]
    exact List.mem_cons_self m0 ms
  refine ⟨m0, hm0, fullSummaryOf st b g0 m0 (totalSUOf (binGroupOf endcaps b))
    (binGroupOf endcaps b), ?_, rfl, rfl, rfl, ?_, ?_⟩
  · rw [hpf, commitFull]
  · rw [hpf, commitFull]
  · rw [hpf, commitFull]
    show availOfFirst (decBin st.availableBins m0.bin _) m0.bin = _
    have hmem : m0 ∈ st.availableBins := (mem_matchingFull endcaps st b m0 hm0).1
    rw [availOfFirst_decBin_found st.availableBins m0.bin _ m0
      (find?_bin_of_nodup st.availableBins m0 hN hmem)]

/-! ## Write-back lemmas -/

theorem writeBackRow_bin (o : TargetRow) (r : TgtRec) : (writeBackRow o r).bin = o.bin := by
  rw [writeBackRow]
  split <;> rfl

theorem writeBack_cons (orig : List TargetRow) (r : TgtRec) (rest : List TgtRec) :
    writeBack orig (r :: rest) = writeBack (orig.map (fun o => writeBackRow o r)) rest := rfl

theorem writeBack_eq_map (orig : List TargetRow) (pool : List TgtRec)
    (hN : (pool.map (fun u => u.bin)).Nodup) :
    writeBack orig pool = orig.map (fun o =>
      match pool.find? (fun r => o.bin == r.bin) with
      | some r => writeBackRow o r
      | none => o) := by
  induction pool generalizing orig with
  | nil =>
    show orig = _
    rw [List.map_id'']
    intro o
    rfl
  | cons r rest ih =>
    simp only [List.map_cons, List.nodup_cons] at hN
    rw [writeBack_cons, ih _ hN.2, List.map_map]
    apply List.map_congr_left
    intro o ho
    show (match rest.find? (fun r2 => (writeBackRow o r).bin == r2.bin) with
      | some r2 => writeBackRow (writeBackRow o r) r2
      | none => writeBackRow o r) = _
    by_cases hob : (o.bin == r.bin) = true
    · have hfr : (r :: rest).find? (fun r2 => o.bin == r2.bin) = some r := by
        rw [List.find?_cons, hob]
      rw [hfr]
      have hnone : rest.find? (fun r2 => (writeBackRow o r).bin == r2.bin) = none := by
        rw [List.find?_eq_none]
        intro r2 hr2
        rw [writeBackRow_bin]
        simp only [beq_iff_eq] at hob ⊢
        intro he
        apply hN.1
        rw [← hob, he]
        exact List.mem_map_of_mem (fun u => u.bin) hr2
      rw [hnone]
    · have hwr : writeBackRow o r = o := by
        rw [writeBackRow]
        rw [if_neg]
        simpa using hob
      have hfr : (r :: rest).find? (fun r2 => o.bin == r2.bin) =
          rest.find? (fun r2 => o.bin == r2.bin) := by
        rw [List.find?_cons]
        simp only [hob, Bool.false_eq_true, if_false]
      rw [hwr, hfr]

theorem writeBackRow_consistent (o : TargetRow) (r : TgtRec) (hav : r.avail = o.avail)
    (hsc : o.suCount = r.capacity - r.avail)
    (hut : o.util = ((r.capacity : ℚ) - (r.avail : ℚ)) / (r.capacity : ℚ) * 100) :
    writeBackRow o r = o := by
  rw [writeBackRow]
  split
  · cases o
    simp only [TargetRow.mk.injEq]
    exact ⟨trivial, trivial, trivial, trivial, trivial, hsc.symm, hav, hut.symm⟩
  · rfl

/-! ## Concrete scenarios and remaining claims -/

/-- C4 counterexample: on the code "AB00000324" (week 03, year 24) the
parser returns the Monday of the Monday-based `%W` week numbering
(2024-01-15, ordinal 738900), not the Monday of the Sunday-based week
numbering described by the spec (2024-01-22, ordinal 738907).  The two
conventions disagree in 2024 because January 1st falls on a Monday. -/
theorem c4_sunday_convention_counterexample :
    parse_batch "AB00000324" = (some "AB", some (mondayOfWeekW 2024 3)) ∧
    mondayOfWeekW 2024 3 = 738900 ∧
    mondayOfWeekSundayBased 2024 3 = 738907 ∧
    parse_batch "AB00000324" ≠ (some "AB", some (mondayOfWeekSundayBased 2024 3)) := by
  decide

/-- C4 (amended): for every code of length at least 10 the parser returns
the first two characters as the batch prefix, and when the four trailing
characters are digits the date is the Monday of the coded week under
Python's Monday-based `%W` convention (the week of the first Monday of
the year is week 1, earlier days are week 0); a week number above 53
yields no date instead of failing. -/
theorem c4_parser_amended :
    (∀ b : String, 10 ≤ b.length →
      (parse_batch b).1 = some (String.mk (b.data.take 2))) ∧
    (∀ (pre : List Char) (w1 w0 y1 y0 : Char), 6 ≤ pre.length →
      w1.isDigit = true → w0.isDigit = true → y1.isDigit = true → y0.isDigit = true →
      parse_batch (String.mk (pre ++ [w1, w0, y1, y0])) =
        (some (String.mk (pre.take 2)),
         if 10 * (w1.toNat - 48) + (w0.toNat - 48) ≤ 53 then
           some (mondayOfWeekW (2000 + 10 * (y1.toNat - 48) + (y0.toNat - 48))
             (10 * (w1.toNat - 48) + (w0.toNat - 48)))
         else none)) :=
  ⟨parse_batch_fst, parse_batch_digits⟩

theorem c4_parser_amended_witness :
    (10 ≤ ("AB00000324" : String).length ∧
      (parse_batch "AB00000324").1 = some (String.mk (("AB00000324" : String).data.take 2))) ∧
    (6 ≤ ("AB0000".data).length ∧
      parse_batch (String.mk ("AB0000".data ++ ['0', '3', '2', '4'])) =
        (some (String.mk (("AB0000".data).take 2)),
         if 10 * (('0' : Char).toNat - 48) + (('3' : Char).toNat - 48) ≤ 53 then
           some (mondayOfWeekW (2000 + 10 * (('2' : Char).toNat - 48) + (('4' : Char).toNat - 48))
             (10 * (('0' : Char).toNat - 48) + (('3' : Char).toNat - 48)))
         else none)) :=
  ⟨⟨by decide, c4_parser_amended.1 "AB00000324" (by decide)⟩,
   ⟨by decide, c4_parser_amended.2 "AB0000".data '0' '3' '2' '4' (by decide) (by decide)
      (by decide) (by decide) (by decide)⟩⟩

/-- Scenario A of the spec, with the batch codes exactly as the spec
writes them ("AB0324W1", "AB0324W9": 8 characters each). -/
def c6srcRows : List SourceRow := [
  { bin := "A1", stype := "END", material := "M100", batch := "AB0324W1", unit := "U1", stock := 1 },
  { bin := "A1", stype := "END", material := "M100", batch := "AB0324W1", unit := "U2", stock := 1 }]

def c6tgtRows : List TargetRow := [
  { bin := "B1", stype := "OSR", material := "M100", batch := "AB0324W9",
    capacity := 10, suCount := 5, avail := 5, util := 40 }]

/-- C6 counterexample: on the spec's own Scenario A data the run commits
nothing — the 8-character batch codes have no prefix and no date, so the
source bin finds no match: no summary row, no assignment rows, and B1
keeps its available capacity of 5 (the spec expects one summary row, two
assignment rows and capacity 3). -/
theorem c6_scenario_a_counterexample :
    (runPipeline ["END"] ["OSR"] false c6srcRows c6tgtRows).1.summary = [] ∧
    (runPipeline ["END"] ["OSR"] false c6srcRows c6tgtRows).1.assignments = [] ∧
    availOfFirst (runPipeline ["END"] ["OSR"] false c6srcRows c6tgtRows).1.availableBins
      "B1" = 5 := by
  decide

/-- Scenario A repaired: the same shape with 10-character batch codes
(weeks 01 and 09 of 2024, both prefix "AB", 56 days apart). -/
def c6okSrcRows : List SourceRow := [
  { bin := "A1", stype := "END", material := "M100", batch := "AB00000124", unit := "U1", stock := 1 },
  { bin := "A1", stype := "END", material := "M100", batch := "AB00000124", unit := "U2", stock := 1 }]

def c6okTgtRows : List TargetRow := [
  { bin := "B1", stype := "OSR", material := "M100", batch := "AB00000924",
    capacity := 10, suCount := 5, avail := 5, util := 40 }]

/-- C6 (amended): with batch codes long enough to parse (10 characters,
same prefix, dates within the window) Scenario A behaves as the spec
describes: one summary row pairing A1 with B1 moving 2 units from a
starting capacity of 5, two assignment rows, and B1's available capacity
becomes 3. -/
theorem c6_scenario_a_amended :
    ((runPipeline ["END"] ["OSR"] false c6okSrcRows c6okTgtRows).1.summary.map
      (fun e => (e.sBin, e.tBin, e.startAvail, e.movedSU))) = [("A1", "B1", 5, 2)] ∧
    (runPipeline ["END"] ["OSR"] false c6okSrcRows c6okTgtRows).1.assignments.length = 2 ∧
    availOfFirst (runPipeline ["END"] ["OSR"] false c6okSrcRows c6okTgtRows).1.availableBins
      "B1" = 3 := by
  decide

/-- One source bin whose single unit dates to week 01/2024, and two
eligible targets: T1 dated week 02/2024 (7 days away), T2 dated week
01/2022 (728 days away). -/
def c2srcRows : List SourceRow := [
  { bin := "S1", stype := "END", material := "M1", batch := "AA00000124", unit := "U1", stock := 1 }]

def c2tgtRows : List TargetRow := [
  { bin := "T1", stype := "OSR", material := "M1", batch := "AA00000224",
    capacity := 10, suCount := 5, avail := 5, util := 50 },
  { bin := "T2", stype := "OSR", material := "M1", batch := "AA00000122",
    capacity := 10, suCount := 4, avail := 5, util := 40 }]

def c2endcaps : List SrcRec := normalizeSources ["END"] c2srcRows

def c2init : EngineState := mkInit (initAvailable ["OSR"] (normalizeTargets c2tgtRows))

/-- C2 counterexample: source bin S1 has a known batch date and the
candidate pool contains a target (T1) of matching material and batch
prefix with enough capacity and within 364 days of every source unit —
yet the run commits nothing, because the full-move date gate checks the
source dates against the WHOLE candidate pool (line 268-279 iterates
over `matching_bins`), and the pool also contains T2, dated 728 days
away. -/
theorem c2_window_check_counterexample :
    (∀ r ∈ binGroupOf c2endcaps "S1", (r.batchDate).isSome = true) ∧
    (∃ t ∈ matchingFull c2endcaps c2init "S1",
      t.bin = "T1" ∧ (totalSUOf (binGroupOf c2endcaps "S1") : Int) ≤ t.avail ∧
      dateCompatible (binGroupOf c2endcaps "S1") [t] = true) ∧
    (runPipeline ["END"] ["OSR"] false c2srcRows c2tgtRows).1.summary = [] ∧
    (runPipeline ["END"] ["OSR"] false c2srcRows c2tgtRows).1.assignments = [] := by
  decide

/-- A one-source, one-target instance on which the amended C2 theorem is
instantiated: S-bin A1 (week 01/2024) against target T1 (week 02/2024). -/
def c2wSrcRows : List SourceRow := [
  { bin := "A1", stype := "END", material := "M1", batch := "AA00000124", unit := "U1", stock := 1 }]

def c2wTgtRows : List TargetRow := [
  { bin := "T1", stype := "OSR", material := "M1", batch := "AA00000224",
    capacity := 10, suCount := 5, avail := 5, util := 50 }]

def c2wEndcaps : List SrcRec := normalizeSources ["END"] c2wSrcRows

def c2wInit : EngineState := mkInit (initAvailable ["OSR"] (normalizeTargets c2wTgtRows))

/-- The single normalized source record of `c2wSrcRows`. -/
def c2wSrcRec : SrcRec :=
  { bin := "A1", stype := "END", material := "M1", batch := "AA00000124",
    rawBatch := "AA00000124", unit := "U1", stock := 1,
    batchPref := some "AA", batchDate := some 738886 }

/-- The single pool record of `c2wTgtRows`. -/
def c2wTgtRec : TgtRec :=
  { bin := "T1", stype := "OSR", material := "M1", batch := "AA00000224",
    capacity := 10, suCount := 5, avail := 5, util := 50,
    batchPref := some "AA", batchDate := some 738893 }

theorem c2_full_move_commits_witness :
    ((c2wInit.availableBins.map (fun u => u.bin)).Nodup ∧
      matchingFull c2wEndcaps c2wInit "A1" ≠ [] ∧
      (∀ r ∈ binGroupOf c2wEndcaps "A1", (r.batchDate).isSome = true) ∧
      (∀ t ∈ matchingFull c2wEndcaps c2wInit "A1", ∀ r ∈ binGroupOf c2wEndcaps "A1",
        ∀ d e : Int, r.batchDate = some d → t.batchDate = some e → (e - d).natAbs ≤ 364)) ∧
    (∃ t ∈ matchingFull c2wEndcaps c2wInit "A1", ∃ e,
      (processBinFull c2wEndcaps c2wInit "A1").summary = c2wInit.summary ++ [e] ∧
      e.sBin = "A1" ∧ e.startAvail = t.avail ∧
      e.movedSU = (totalSUOf (binGroupOf c2wEndcaps "A1") : Int) ∧
      (processBinFull c2wEndcaps c2wInit "A1").usedSourceBins = "A1" :: c2wInit.usedSourceBins ∧
      availOfFirst (processBinFull c2wEndcaps c2wInit "A1").availableBins t.bin =
        t.avail - (totalSUOf (binGroupOf c2wEndcaps "A1") : Int)) := by
  have hw : ∀ t ∈ matchingFull c2wEndcaps c2wInit "A1", ∀ r ∈ binGroupOf c2wEndcaps "A1",
      ∀ d e : Int, r.batchDate = some d → t.batchDate = some e → (e - d).natAbs ≤ 364 := by
    have hml : matchingFull c2wEndcaps c2wInit "A1" = [c2wTgtRec] := by decide
    have hbg : binGroupOf c2wEndcaps "A1" = [c2wSrcRec] := by decide
    rw [hml, hbg]
    intro t ht r hr d e hd he
    rw [List.mem_singleton] at ht hr
    subst ht
    subst hr
    have hd2 : (some 738886 : Option Int) = some d := hd
    have he2 : (some 738893 : Option Int) = some e := he
    have hd3 := Option.some.inj hd2
    have he3 := Option.some.inj he2
    subst hd3
    subst he3
    decide
  exact ⟨⟨by decide, by decide, by decide, hw⟩,
    c2_full_move_commits c2wEndcaps c2wInit "A1" (by decide) (by decide) (by decide) hw⟩

theorem c1_capacity_never_negative_witness :
    ((([c2wTgtRec].map (fun u => u.bin)).Nodup ∧ (∀ u ∈ [c2wTgtRec], 0 ≤ u.avail)) ∧
      ((initAvailable ["OSR"] (normalizeTargets c2wTgtRows)).map (fun u => u.bin)).Nodup) ∧
    ((∀ u ∈ (runEngine false c2wEndcaps ["A1"] (mkInit [c2wTgtRec])).availableBins, 0 ≤ u.avail) ∧
      (∀ u ∈ (runPipeline ["END"] ["OSR"] false c2wSrcRows c2wTgtRows).1.availableBins,
        0 ≤ u.avail)) :=
  ⟨⟨⟨by decide, by decide⟩, by decide⟩,
   ⟨c1_capacity_never_negative.1 false c2wEndcaps ["A1"] [c2wTgtRec] (by decide) (by decide),
    c1_capacity_never_negative.2 ["END"] ["OSR"] false c2wSrcRows c2wTgtRows (by decide)⟩⟩

/-- The normalized record of the first row of `c6srcRows`: its batch code
is 8 characters, so it parses to no prefix and no date. -/
def c5wRec : SrcRec :=
  { bin := "A1", stype := "END", material := "M100", batch := "AB0324W1",
    rawBatch := "AB0324W1", unit := "U1", stock := 1, batchPref := none, batchDate := none }

theorem c5_short_batch_never_assigned_witness :
    (c5wRec ∈ normalizeSources ["END"] c6srcRows ∧ c5wRec.batch.length < 10) ∧
    ((∀ e ∈ (runPipeline ["END"] ["OSR"] false c6srcRows c6tgtRows).1.summary,
        e.sBin ≠ c5wRec.bin) ∧
      (∀ a ∈ (runPipeline ["END"] ["OSR"] false c6srcRows c6tgtRows).1.assignments,
        a.sBin ≠ c5wRec.bin)) :=
  ⟨⟨by decide, by decide⟩,
   c5_short_batch_never_assigned ["END"] ["OSR"] false c6srcRows c6tgtRows c5wRec
     (by decide) (by decide)⟩

/-- Source bin P1 with three units against two targets of two free slots
each: the split move spreads the bin over both targets and commits. -/
def c7wSrcRows : List SourceRow := [
  { bin := "P1", stype := "END", material := "M1", batch := "AA00000124", unit := "U1", stock := 1 },
  { bin := "P1", stype := "END", material := "M1", batch := "AA00000124", unit := "U2", stock := 1 },
  { bin := "P1", stype := "END", material := "M1", batch := "AA00000124", unit := "U3", stock := 1 }]

def c7wTgtRows : List TargetRow := [
  { bin := "T1", stype := "OSR", material := "M1", batch := "AA00000224",
    capacity := 10, suCount := 8, avail := 2, util := 80 },
  { bin := "T2", stype := "OSR", material := "M1", batch := "AA00000224",
    capacity := 10, suCount := 8, avail := 2, util := 80 }]

def c7wEndcaps : List SrcRec := normalizeSources ["END"] c7wSrcRows

def c7wInit : EngineState := mkInit (initAvailable ["OSR"] (normalizeTargets c7wTgtRows))

theorem c7_split_move_atomic_witness :
    ((c7wInit.availableBins.map (fun u => u.bin)).Nodup ∧
      (∀ u ∈ c7wInit.availableBins, 0 ≤ u.avail)) ∧
    (processBinSplit c7wEndcaps c7wInit "P1" = c7wInit ∨
      ∃ e, e.sBin = "P1" ∧
        (processBinSplit c7wEndcaps c7wInit "P1").summary = c7wInit.summary ++ [e] ∧
        (processBinSplit c7wEndcaps c7wInit "P1").usedSourceBins =
          "P1" :: c7wInit.usedSourceBins) :=
  ⟨⟨by decide, by decide⟩, c7_split_move_atomic c7wEndcaps c7wInit "P1" (by decide) (by decide)⟩

/-- Two one-unit source bins S1, S2 against a single target T1 with five
free slots: both bins commit into the same target. -/
def c10srcRows : List SourceRow := [
  { bin := "S1", stype := "END", material := "M1", batch := "AA00000124", unit := "U1", stock := 1 },
  { bin := "S2", stype := "END", material := "M1", batch := "AA00000124", unit := "U2", stock := 1 }]

def c10tgtRows : List TargetRow := [
  { bin := "T1", stype := "OSR", material := "M1", batch := "AA00000224",
    capacity := 10, suCount := 5, avail := 5, util := 50 }]

def c10endcaps : List SrcRec := normalizeSources ["END"] c10srcRows

def c10pool : List TgtRec := initAvailable ["OSR"] (normalizeTargets c10tgtRows)

/-- C10: a commit never removes a target from the candidate pool.  The
first conjunct is general: one engine step, under either policy, leaves
the pool's bin-id column unchanged (only the `Avail SU` values move).
The second instantiates a run in which the one target T1 receives
committed moves from the two distinct source bins S1 and S2: the second
commit sees T1 with its decremented capacity 4, and T1 ends at 3. -/
theorem c10_target_remains_candidate :
    (∀ (split : Bool) (endcaps : List SrcRec) (st : EngineState) (b : String),
      (processBin split endcaps st b).availableBins.map (fun u => u.bin) =
        st.availableBins.map (fun u => u.bin)) ∧
    (((runPipeline ["END"] ["OSR"] false c10srcRows c10tgtRows).1.summary.map
        (fun e => (e.sBin, e.tBin, e.startAvail, e.movedSU))) =
      [("S1", "T1", 5, 1), ("S2", "T1", 4, 1)] ∧
      availOfFirst (runPipeline ["END"] ["OSR"] false c10srcRows c10tgtRows).1.availableBins
        "T1" = 3) :=
  ⟨processBin_pool_bins, by decide⟩

/-- The second-step assignment row of the C10 run: source S2 into target
T1, after S1's commit has brought T1 down to 4. -/
def c3wAsg : AssignmentRow :=
  { tStype := "OSR", tBin := "T1", sBin := "S2", sStype := "END", material := "M1",
    oldestTargetBatch := "AA00000224", batch := "AA00000124", suCapacity := 10,
    movedCount := 1, remainingAvail := 3, unit := "U2", totalStock := 1 }

/-- The first-step summary row of the C10 run: source S1 into target T1. -/
def c3wSum : SummaryRow :=
  { tStype := "OSR", sStype := "END", tBin := "T1", sBin := "S1", material := "M1",
    oldestTarget := "AA00000224", newestTarget := "AA00000224",
    oldestSource := "AA00000124", newestSource := "AA00000124",
    suCapacity := 10, startSuCount := 5, startAvail := 5, movedSU := 1 }

theorem c3_committed_source_never_reused_witness :
    ((c3wAsg ∈ (runEngine false c10endcaps (["S1", "S2"].take 2) (mkInit c10pool)).assignments ∧
      c3wAsg ∉ (runEngine false c10endcaps (["S1", "S2"].take 1) (mkInit c10pool)).assignments ∧
      c3wSum ∈ (runEngine false c10endcaps (["S1", "S2"].take 1) (mkInit c10pool)).summary) ∧
    (((runEngine false c10endcaps ["S1", "S2"] (mkInit c10pool)).summary.map
        (fun e => e.sBin)).Nodup ∧
      c3wAsg.tBin ≠ c3wSum.sBin)) :=
  ⟨⟨by decide, by decide, by decide⟩,
   ⟨(c3_committed_source_never_reused false c10endcaps ["S1", "S2"] c10pool).1,
    (c3_committed_source_never_reused false c10endcaps ["S1", "S2"] c10pool).2 1 c3wAsg
      (by decide) (by decide) c3wSum (by decide)⟩⟩

/-- An upload row with surrounding whitespace in every string field. -/
def c8srcRow : SourceRow :=
  { bin := " A1 ", stype := "END", material := " M1 ", batch := " AB00000124 ",
    unit := " U1 ", stock := 1 }

/-- An Open Space row with surrounding whitespace in every string field. -/
def c8tgtRow : TargetRow :=
  { bin := " B1 ", stype := "OSR", material := " M1 ", batch := " AB00000124 ",
    capacity := 10, suCount := 2, avail := 8, util := 20 }

/-- C8 counterexample: normalization strips every string field of the
source table, but on the target table it strips only material and batch:
the target bin id keeps its surrounding whitespace (" B1 " stays " B1 ",
even though stripping would change it), so a target bin id differing
from a source value only by whitespace does NOT compare equal. -/
theorem c8_trim_counterexample :
    ((normalizeSources ["END"] [c8srcRow]).map (fun r => (r.bin, r.unit, r.material, r.batch))) =
      [("A1", "U1", "M1", "AB00000124")] ∧
    ((normalizeTargets [c8tgtRow]).map (fun t => (t.bin, t.material, t.batch))) =
      [(" B1 ", "M1", "AB00000124")] ∧
    pyStrip " B1 " = "B1" ∧ (" B1 " : String) ≠ "B1" := by
  decide

/-- C8 (amended): every normalized source record is a source row with
bin id, unit id, material and batch stripped of surrounding whitespace
(the storage type passes through); every normalized target record keeps
its bin id and storage type exactly as uploaded and strips only the
material and the batch code. -/
theorem c8_trim_amended :
    (∀ (selT : List String) (srcRows : List SourceRow) (r : SrcRec),
      r ∈ normalizeSources selT srcRows →
      ∃ r0 ∈ srcRows, r.bin = pyStrip r0.bin ∧ r.unit = pyStrip r0.unit ∧
        r.material = pyStrip r0.material ∧ r.batch = pyStrip r0.batch ∧ r.stype = r0.stype) ∧
    (∀ (tgtRows : List TargetRow) (t : TgtRec),
      t ∈ normalizeTargets tgtRows →
      ∃ t0 ∈ tgtRows, t.bin = t0.bin ∧ t.stype = t0.stype ∧
        t.material = pyStrip t0.material ∧ t.batch = pyStrip t0.batch) := by
  constructor
  · intro selT srcRows r hr
    rw [normalizeSources] at hr
    rcases List.mem_map.mp hr with ⟨r0, hr0, rfl⟩
    exact ⟨r0, List.mem_of_mem_filter hr0, rfl, rfl, rfl, rfl, rfl⟩
  · intro tgtRows t ht
    rw [normalizeTargets, mem_sortByLe] at ht
    rcases List.mem_map.mp ht with ⟨t0, ht0, rfl⟩
    exact ⟨t0, List.mem_of_mem_filter ht0, rfl, rfl, rfl, rfl⟩

/-- The normalized record of `c8srcRow`. -/
def c8srcNormRec : SrcRec :=
  { bin := "A1", stype := "END", material := "M1", batch := "AB00000124",
    rawBatch := " AB00000124 ", unit := "U1", stock := 1,
    batchPref := some "AB", batchDate := some 738886 }

/-- The normalized record of `c8tgtRow`: the bin id keeps its spaces. -/
def c8normRec : TgtRec :=
  { bin := " B1 ", stype := "OSR", material := "M1", batch := "AB00000124",
    capacity := 10, suCount := 2, avail := 8, util := 20,
    batchPref := some "AB", batchDate := some 738886 }

theorem c8_trim_amended_witness :
    ((c8srcNormRec ∈ normalizeSources ["END"] [c8srcRow]) ∧
      (c8normRec ∈ normalizeTargets [c8tgtRow])) ∧
    ((∃ r0 ∈ [c8srcRow], c8srcNormRec.bin = pyStrip r0.bin ∧
        c8srcNormRec.unit = pyStrip r0.unit ∧
        c8srcNormRec.material = pyStrip r0.material ∧
        c8srcNormRec.batch = pyStrip r0.batch ∧ c8srcNormRec.stype = r0.stype) ∧
      (∃ t0 ∈ [c8tgtRow], c8normRec.bin = t0.bin ∧ c8normRec.stype = t0.stype ∧
        c8normRec.material = pyStrip t0.material ∧ c8normRec.batch = pyStrip t0.batch)) :=
  ⟨⟨by decide, by decide⟩,
   ⟨c8_trim_amended.1 ["END"] [c8srcRow] c8srcNormRec (by decide),
    c8_trim_amended.2 [c8tgtRow] c8normRec (by decide)⟩⟩

/-- An Open Space row whose stored SU count (3) and utilization (30) are
inconsistent with its capacity figures: capacity 10, available 5. -/
def c9tgtRow : TargetRow :=
  { bin := "B1", stype := "OSR", material := "M1", batch := "AA00000124",
    capacity := 10, suCount := 3, avail := 5, util := 30 }

/-- A pool record for bin B1 with capacity 10 and availability 5. -/
def c9rec : TgtRec :=
  { bin := "B1", stype := "OSR", material := "M1", batch := "AA00000124",
    capacity := 10, suCount := 3, avail := 5, util := 30,
    batchPref := some "AA", batchDate := some 738886 }

/-- C9 counterexample: a run with no source rows commits nothing, yet the
write-back still rewrites B1's row, recomputing SU count (3 becomes
10 - 5 = 5) and utilization (30 becomes 50): a target that received no
committed move does NOT necessarily pass through unchanged — the
recomputation hits every pool row, affected or not. -/
theorem c9_writeback_counterexample :
    (runPipeline ["END"] ["OSR"] false [] [c9tgtRow]).1.summary = [] ∧
    (runPipeline ["END"] ["OSR"] false [] [c9tgtRow]).1.assignments = [] ∧
    (runPipeline ["END"] ["OSR"] false [] [c9tgtRow]).2 =
      [{ c9tgtRow with suCount := 5, util := 50 }] ∧
    ({ c9tgtRow with suCount := 5, util := 50 } : TargetRow) ≠ c9tgtRow := by
  refine ⟨by decide, by decide, ?_, by decide⟩
  have hpool : (runPipeline ["END"] ["OSR"] false [] [c9tgtRow]).1.availableBins = [c9rec] := by
    decide
  have h2 : (runPipeline ["END"] ["OSR"] false [] [c9tgtRow]).2 =
      writeBack [c9tgtRow] (runPipeline ["END"] ["OSR"] false [] [c9tgtRow]).1.availableBins :=
    rfl
  rw [h2, hpool]
  show [writeBackRow c9tgtRow c9rec] = _
  rw [writeBackRow, if_pos (by decide)]
  norm_num [c9tgtRow, c9rec]

/-- C9 (amended): with one pool row per bin id, the write-back maps each
original row through its bin's pool row (rows of bins outside the pool
pass through), writing the pool's available capacity and a recomputed SU
count and utilization; a row already consistent with its pool row — same
availability, SU count equal to capacity minus availability, utilization
equal to the recomputed percentage — is left exactly unchanged.  So
untouched targets pass through unchanged only when their uploaded SU
count and utilization already agree with the recomputation. -/
theorem c9_writeback_amended :
    (∀ (orig : List TargetRow) (pool : List TgtRec),
      (pool.map (fun u => u.bin)).Nodup →
      writeBack orig pool = orig.map (fun o =>
        match pool.find? (fun r => o.bin == r.bin) with
        | some r => writeBackRow o r
        | none => o)) ∧
    (∀ (o : TargetRow) (r : TgtRec), r.avail = o.avail →
      o.suCount = r.capacity - r.avail →
      o.util = ((r.capacity : ℚ) - (r.avail : ℚ)) / (r.capacity : ℚ) * 100 →
      writeBackRow o r = o) :=
  ⟨writeBack_eq_map, writeBackRow_consistent⟩

/-- An uploaded row already consistent with `c9rec`. -/
def c9okRow : TargetRow :=
  { bin := "B1", stype := "OSR", material := "M1", batch := "AA00000124",
    capacity := 10, suCount := 5, avail := 5, util := 50 }

theorem c9_writeback_amended_witness :
    ((([c9rec].map (fun u => u.bin)).Nodup ∧
      writeBack [c9okRow] [c9rec] = [c9okRow].map (fun o =>
        match [c9rec].find? (fun r => o.bin == r.bin) with
        | some r => writeBackRow o r
        | none => o)) ∧
    ((c9rec.avail = c9okRow.avail ∧ c9okRow.suCount = c9rec.capacity - c9rec.avail ∧
        c9okRow.util = ((c9rec.capacity : ℚ) - (c9rec.avail : ℚ)) / (c9rec.capacity : ℚ) * 100) ∧
      writeBackRow c9okRow c9rec = c9okRow)) :=
  ⟨⟨by decide, c9_writeback_amended.1 [c9okRow] [c9rec] (by decide)⟩,
   ⟨⟨by decide, by decide, by norm_num [c9okRow, c9rec]⟩,
    c9_writeback_amended.2 c9okRow c9rec (by decide) (by decide)
      (by norm_num [c9okRow, c9rec])⟩⟩
